import Mathlib

/-!
Verification of the rk_rom_kitchen partition/super image assembly core.

Shallow embedding of the core modules:
* `app/core/partition_image_engine.py` — format sniffer (magic-byte detection),
* `app/core/super_image_engine.py` — super resize validation (strict / auto),
* `app/core/dirty_tracker.py` — dirty flags and snapshot change detection,
* `app/core/avb_manager.py` — vbmeta size-preserving patch, minimal vbmeta
  fallback, slot resolution of vbmeta candidates, and the fstab line patcher.

Files are modelled as byte lists (`List Nat`, each entry `< 256` where it
matters); reading `len` bytes at offset `off` from a file is
`(buf.drop off).take len`, which, like Python's `f.seek`/`f.read`, returns a
short (possibly empty) result past end of file.
-/

set_option autoImplicit false
set_option maxRecDepth 100000

namespace RK

/-- Boolean suffix test on strings by their character lists (Python
`str.endswith`). -/
def strEndsWith (s suffix : String) : Bool :=
  suffix.data.isSuffixOf s.data

/-- Python `s[:-n]`: drop the last `n` characters. -/
def strDropRight (s : String) (n : Nat) : String :=
  ⟨s.data.take (s.data.length - n)⟩

/-- Python string concatenation on the character-list representation. -/
def strAppend (s t : String) : String :=
  ⟨s.data ++ t.data⟩

/-! ### Format sniffer — `partition_image_engine.py`

`SPARSE_MAGIC = b'\x3a\xff\x26\xed'`, `EXT4_MAGIC = b'\x53\xef'` at offset
`0x438`, EROFS magic `b'\xe2\xe1\xf5\xe0'` at offset `1024`. -/

/-- Bytes returned by `f.seek(off); f.read(len)` on a file with contents `buf`. -/
def readAt (buf : List Nat) (off len : Nat) : List Nat :=
  (buf.drop off).take len

/-- Embeds `is_sparse_image`: first 4 bytes equal the Android sparse magic. -/
def is_sparse_image (buf : List Nat) : Bool :=
  readAt buf 0 4 == [0x3a, 0xff, 0x26, 0xed]

/-- Embeds `is_ext4_image`: 2 bytes at offset `0x438` equal the ext4 magic. -/
def is_ext4_image (buf : List Nat) : Bool :=
  readAt buf 0x438 2 == [0x53, 0xef]

/-- Embeds `is_erofs_image`: 4 bytes at offset `1024` equal the EROFS magic. -/
def is_erofs_image (buf : List Nat) : Bool :=
  readAt buf 1024 4 == [0xe2, 0xe1, 0xf5, 0xe0]

/-- Filesystem classification outcomes of the sniffer. -/
inductive FsType
  | sparse
  | ext4
  | erofs
  | unknown
deriving DecidableEq, Repr

/-- Embeds `detect_fs_type`: ext4 checked first, then EROFS, else unknown
(the function itself never reports sparse). -/
def detect_fs_type (buf : List Nat) : FsType :=
  if is_ext4_image buf then .ext4
  else if is_erofs_image buf then .erofs
  else .unknown

/-- Embeds steps 1–2 of `extract_partition_image`: the sparse probe
(`is_sparse_image`) runs first and gates conversion; only a non-sparse
image reaches `detect_fs_type`. -/
def classify_image (buf : List Nat) : FsType :=
  if is_sparse_image buf then .sparse
  else detect_fs_type buf

/-! ### Super resize validation — `super_image_engine.py` -/

/-- Embeds the `PartitionInfo` dataclass fields used by resize validation;
`group = none` models Python `None` (the code replaces it by `"default"`). -/
structure PartitionInfo where
  name : String
  group : Option String
  size : Nat
deriving DecidableEq, Repr

/-- Embeds the `SuperMetadata` fields used by resize validation. -/
structure SuperMetadata where
  capacity : Nat
  groups : List (String × Nat)
  partitions : List PartitionInfo
deriving DecidableEq, Repr

/-- Python `dict.get(k, d)` over an association list (first binding wins,
as in a dict where keys are unique). -/
def dictGet (m : List (String × Nat)) (k : String) (d : Nat) : Nat :=
  match m with
  | [] => d
  | (k', v) :: rest => if k' == k then v else dictGet rest k d

/-- Python `new_sizes.get(part.name, part.size)`: the requested new size of a
partition, defaulting to its recorded size. `new_sizes` is the resize-request
dict, modelled as a partial map. -/
def requestedSize (new_sizes : String → Option Nat) (p : PartitionInfo) : Nat :=
  (new_sizes p.name).getD p.size

/-- Python `part.group or "default"`. -/
def groupOf (p : PartitionInfo) : String :=
  p.group.getD "default"

/-- Structured form of the error message returned by the resize validators
(the Python code formats it into a string naming the same data). -/
inductive ResizeError
  | partOverflow (name : String) (delta : Nat)
  | groupOverflow (group : String) (delta : Nat)
  | capacityOverflow (delta : Nat)
deriving DecidableEq, Repr

/-- The partition loop of `validate_resize_strict`: fail on the first
partition whose requested size exceeds its recorded size. -/
def strictScan (new_sizes : String → Option Nat) :
    List PartitionInfo → Except ResizeError Unit
  | [] => .ok ()
  | p :: rest =>
    if requestedSize new_sizes p > p.size then
      .error (.partOverflow p.name (requestedSize new_sizes p - p.size))
    else strictScan new_sizes rest

/-- Embeds `validate_resize_strict`: scan `meta.partitions` in order and fail
on the first partition whose requested size exceeds its recorded size, naming
the partition and the overflow `delta`. -/
def validate_resize_strict (new_sizes : String → Option Nat)
    (meta : SuperMetadata) : Except ResizeError Unit :=
  strictScan new_sizes meta.partitions

/-- Python `group_totals[group] = group_totals.get(group, 0) + new_size` over
an insertion-ordered dict, modelled as an association list that preserves
first-insertion order. -/
def bumpTotal (m : List (String × Nat)) (g : String) (n : Nat) :
    List (String × Nat) :=
  match m with
  | [] => [(g, n)]
  | (k, v) :: rest => if k == g then (k, v + n) :: rest else (k, v) :: bumpTotal rest g n

/-- The `group_totals` dict built by the first loop of `validate_resize_auto`,
in insertion order. -/
def groupTotals (new_sizes : String → Option Nat)
    (parts : List PartitionInfo) : List (String × Nat) :=
  parts.foldl (fun m p => bumpTotal m (groupOf p) (requestedSize new_sizes p)) []

/-- The per-group budget loop of `validate_resize_auto`
(`for group, total in group_totals.items()`), with
`max_size = meta.groups.get(group, meta.capacity)`. -/
def autoGroupScan (meta : SuperMetadata) :
    List (String × Nat) → Except ResizeError Unit
  | [] => .ok ()
  | (g, total) :: rest =>
    if total > dictGet meta.groups g meta.capacity then
      .error (.groupOverflow g (total - dictGet meta.groups g meta.capacity))
    else autoGroupScan meta rest

/-- Embeds `validate_resize_auto`: first every group total is checked against
`meta.groups.get(group, meta.capacity)` (in dict order, naming the group and
overflow), then the grand total is checked against `meta.capacity`. -/
def validate_resize_auto (new_sizes : String → Option Nat)
    (meta : SuperMetadata) : Except ResizeError Unit :=
  let totals := groupTotals new_sizes meta.partitions
  match autoGroupScan meta totals with
  | .error e => .error e
  | .ok () =>
    let total_all := (totals.map Prod.snd).sum
    if total_all > meta.capacity then
      .error (.capacityOverflow (total_all - meta.capacity))
    else .ok ()

/-! ### Dirty/snapshot tracker — `dirty_tracker.py`

The tracker's persisted state is `dirty.json` (a `partition -> bool` dict)
and `source_snapshot.json` (a `partition -> snapshot` dict), modelled as
insertion-ordered association lists. `compute_source_snapshot` walks the
filesystem, so it is modelled as an oracle `current : String → SourceSnapshot`
giving the present snapshot of each partition's source tree. -/

/-- Embeds the snapshot record `{file_count, total_size, newest_mtime_ns}`
produced by `compute_source_snapshot`. -/
structure SourceSnapshot where
  file_count : Nat
  total_size : Nat
  newest_mtime_ns : Nat
deriving DecidableEq, Repr

/-- Persisted tracker state: the contents of `dirty.json` and
`source_snapshot.json`. -/
structure DirtyStore where
  flags : List (String × Bool)
  snapshots : List (String × SourceSnapshot)
deriving DecidableEq, Repr

/-- Python `dict.get(k)` over an association list (keys unique, first wins). -/
def assocGet {α : Type} (m : List (String × α)) (k : String) : Option α :=
  match m with
  | [] => none
  | (k', v) :: rest => if k' == k then some v else assocGet rest k

/-- Python `dict[k] = v` over an insertion-ordered association list. -/
def assocSet {α : Type} (m : List (String × α)) (k : String) (v : α) :
    List (String × α) :=
  match m with
  | [] => [(k, v)]
  | (k', v') :: rest =>
    if k' == k then (k', v) :: rest else (k', v') :: assocSet rest k v

/-- Embeds `is_dirty`: `flags.get(partition_name, True)` — unknown partitions
default to dirty. -/
def is_dirty (st : DirtyStore) (name : String) : Bool :=
  (assocGet st.flags name).getD true

/-- Embeds `set_dirty`: store the flag and write the dict back. -/
def set_dirty (st : DirtyStore) (name : String) (d : Bool) : DirtyStore :=
  { st with flags := assocSet st.flags name d }

/-- Embeds `check_partition_changed`: no stored snapshot means changed (safe
default); otherwise changed iff file count, total size, or newest mtime
differ. (The Python `saved.get` key defaults and the legacy `newest_mtime`
key do not arise for records written by `save_partition_snapshot`, which
always stores all three keys; the model uses the structured record.) -/
def check_partition_changed (current : String → SourceSnapshot)
    (st : DirtyStore) (name : String) : Bool :=
  match assocGet st.snapshots name with
  | none => true
  | some saved =>
    let cur := current name
    cur.file_count != saved.file_count
      || cur.total_size != saved.total_size
      || cur.newest_mtime_ns != saved.newest_mtime_ns

/-- Embeds `auto_detect_dirty`: a detected change forces the flag to dirty and
returns true; otherwise the stored flag is returned and the store is left
untouched. Returns (result, state after the call). -/
def auto_detect_dirty (current : String → SourceSnapshot)
    (st : DirtyStore) (name : String) : Bool × DirtyStore :=
  if check_partition_changed current st name then
    (true, set_dirty st name true)
  else
    (is_dirty st name, st)

/-- Embeds `save_partition_snapshot`: store the freshly computed snapshot. -/
def save_partition_snapshot (current : String → SourceSnapshot)
    (st : DirtyStore) (name : String) : DirtyStore :=
  { st with snapshots := assocSet st.snapshots name (current name) }

/-- Embeds `mark_clean_after_extract`: save a fresh snapshot, then set the
dirty flag to false. -/
def mark_clean_after_extract (current : String → SourceSnapshot)
    (st : DirtyStore) (name : String) : DirtyStore :=
  set_dirty (save_partition_snapshot current st name) name false

/-! ### Minimal vbmeta fallback — `avb_manager.create_minimal_vbmeta` -/

/-- Python `(n).to_bytes(len, 'big')`. -/
def toBytesBE (n len : Nat) : List Nat :=
  (List.range len).map (fun k => n / 256 ^ (len - 1 - k) % 256)

/-- Python `data[off : off + vals.length] = vals` on a bytearray (the code
only writes slices that lie inside the 4096-byte buffer). -/
def writeBytes (data : List Nat) (off : Nat) (vals : List Nat) : List Nat :=
  match data, off, vals with
  | [], _, _ => []
  | d :: ds, 0, [] => d :: ds
  | _ :: ds, 0, v :: vs => v :: writeBytes ds 0 vs
  | d :: ds, n + 1, vs => d :: writeBytes ds n vs

/-- Byte values of the release string `b"RK_Kitchen_disabled"`. -/
def releaseBytes : List Nat :=
  "RK_Kitchen_disabled".data.map Char.toNat

/-- Embeds `create_minimal_vbmeta`: the fallback 4096-byte vbmeta image,
written field by field exactly as the source does (magic, versions, zeroed
block sizes, algorithm, six zeroed offset/size fields, zeroed descriptor
offset/size, rollback index, flags `2` big-endian at offset 120, release
string at 128). -/
def create_minimal_vbmeta : List Nat :=
  let d0 := List.replicate 4096 0
  let d1 := writeBytes d0 0 [0x41, 0x56, 0x42, 0x30]
  let d2 := writeBytes d1 4 (toBytesBE 1 4)
  let d3 := writeBytes d2 8 (toBytesBE 0 4)
  let d4 := writeBytes d3 12 (toBytesBE 0 8)
  let d5 := writeBytes d4 20 (toBytesBE 0 8)
  let d6 := writeBytes d5 28 (toBytesBE 0 4)
  let d7 := (List.range 6).foldl
    (fun d i => writeBytes d (32 + i * 8) (toBytesBE 0 8)) d6
  let d8 := writeBytes d7 80 (toBytesBE 0 8)
  let d9 := writeBytes d8 88 (toBytesBE 0 8)
  let d10 := writeBytes d9 96 (toBytesBE 0 8)
  let d11 := writeBytes d10 120 (toBytesBE 2 4)
  writeBytes d11 128 releaseBytes

/-! ### Size-preserving vbmeta patch — `avb_manager.patch_all_vbmeta`

For one target the relevant step (source lines 247–269) is: with `orig` the
original partition size and a synthesized candidate written to a temp file,
an oversize candidate is unlinked and the whole batch returns
`TaskResult.error`; otherwise the candidate is zero-padded to `orig` bytes
and moved onto the destination. -/

/-- Filesystem outcome at one target: the destination file's bytes (if any
were written) and the temp candidate file's bytes (if it still exists). -/
structure TargetState where
  dest : Option (List Nat)
  temp : Option (List Nat)
deriving DecidableEq, Repr

/-- Embeds the per-target size check / pad / move step of `patch_all_vbmeta`.
Returns the resulting filesystem state and whether the step was fatal. -/
def patch_vbmeta_target (orig : Nat) (cand : List Nat) : TargetState × Bool :=
  if cand.length > orig then
    ({ dest := none, temp := none }, true)
  else
    ({ dest := some (cand ++ List.replicate (orig - cand.length) 0),
       temp := none }, false)

/-- Embeds the target loop of `patch_all_vbmeta`: process targets in order,
collect the written artifacts, and abort the whole batch with an error on the
first fatal (oversize) target — targets after it are not touched. Each input
is `(orig, cand)`: the original size and the synthesized candidate bytes. -/
def patch_all_vbmeta : List (Nat × List Nat) → Except String (List (List Nat))
  | [] => .ok []
  | (orig, cand) :: rest =>
    match patch_vbmeta_target orig cand with
    | (_, true) => .error "CRITICAL: Patched size > Original. Corrupt risk!"
    | (st, false) =>
      match patch_all_vbmeta rest with
      | .ok arts => .ok (st.dest.getD [] :: arts)
      | .error e => .error e

/-! ### Slot resolution — `avb_manager.scan_vbmeta_targets`

The scanner groups candidate names by a base obtained by stripping a trailing
`_a`/`_b` slot suffix, then applies the slot-mode rules. In the source the
names are vbmeta filenames (`NAME_a.img`), so the suffix sits before the
fixed `.img` extension; both the filename form and the bare-name form of the
same grouping are defined below. -/

/-- Slot modes (`project.config.slot_mode` strings `"auto"/"A"/"B"/"both"`). -/
inductive SlotMode
  | auto
  | A
  | B
  | both
deriving DecidableEq, Repr

/-- Which slot variant a name is. -/
inductive SlotKind
  | a
  | b
  | base
deriving DecidableEq, Repr

/-- The `'a'/'b'/'base'` variants recorded for one group. -/
structure SlotVariants where
  va : Option String := none
  vb : Option String := none
  vbase : Option String := none
deriving DecidableEq, Repr

/-- Splitter used by the source on filenames: `NAME_a.img` has base
`NAME.img` (`name[:-6] + ".img"`), likewise `_b`; anything else is a base. -/
def splitSlotImg (name : String) : String × SlotKind :=
  if strEndsWith name "_a.img" then (strAppend (strDropRight name 6) ".img", .a)
  else if strEndsWith name "_b.img" then (strAppend (strDropRight name 6) ".img", .b)
  else (name, .base)

/-- The same grouping on bare partition names: strip a trailing `_a`/`_b`. -/
def splitSlotName (name : String) : String × SlotKind :=
  if strEndsWith name "_a" then (strDropRight name 2, .a)
  else if strEndsWith name "_b" then (strDropRight name 2, .b)
  else (name, .base)

/-- Record `name` under slot `k` in a group's variants
(`groups[base][slot] = path`). -/
def setVariant (v : SlotVariants) (k : SlotKind) (name : String) :
    SlotVariants :=
  match k with
  | .a => { v with va := some name }
  | .b => { v with vb := some name }
  | .base => { v with vbase := some name }

/-- Insert one candidate into the insertion-ordered `groups` dict. -/
def addToGroups (gs : List (String × SlotVariants)) (base : String)
    (k : SlotKind) (name : String) : List (String × SlotVariants) :=
  match gs with
  | [] => [(base, setVariant {} k name)]
  | (b, v) :: rest =>
    if b == base then (b, setVariant v k name) :: rest
    else (b, v) :: addToGroups rest base k name

/-- The grouping loop of `scan_vbmeta_targets`, generic in the base/slot
splitter. -/
def buildGroups (split : String → String × SlotKind) (names : List String) :
    List (String × SlotVariants) :=
  names.foldl (fun gs n => addToGroups gs (split n).1 (split n).2 n) []

/-- The per-group slot-mode rules of `scan_vbmeta_targets`: `auto` prefers
`_a`, then `_b`, then the base; `A` takes `_a` with base fallback; `B` takes
`_b` with base fallback; `both` takes every slot variant and the base only
when no slot variant exists. -/
def pickVariants (mode : SlotMode) (v : SlotVariants) : List String :=
  match mode with
  | .auto =>
    match v.va, v.vb, v.vbase with
    | some x, _, _ => [x]
    | none, some x, _ => [x]
    | none, none, some x => [x]
    | none, none, none => []
  | .A =>
    match v.va, v.vbase with
    | some x, _ => [x]
    | none, some x => [x]
    | none, none => []
  | .B =>
    match v.vb, v.vbase with
    | some x, _ => [x]
    | none, some x => [x]
    | none, none => []
  | .both =>
    v.va.toList ++ v.vb.toList ++
      (if v.va.isNone && v.vb.isNone then v.vbase.toList else [])

/-- Slot resolution generic in the splitter: group, then apply the mode
rules group by group in insertion order. -/
def resolveWith (split : String → String × SlotKind) (mode : SlotMode)
    (names : List String) : List String :=
  (buildGroups split names).foldl (fun acc bv => acc ++ pickVariants mode bv.2) []

/-- Embeds the filtering of `scan_vbmeta_targets` on vbmeta filenames. -/
def scan_vbmeta_filter (mode : SlotMode) (names : List String) : List String :=
  resolveWith splitSlotImg mode names

/-- The same resolution on bare partition names (the spec's `resolve`). -/
def resolve_slots (mode : SlotMode) (names : List String) : List String :=
  resolveWith splitSlotName mode names

/-! ### Fstab line patcher — `avb_manager.FSTAB_PATTERNS` / `patch_fstab_line`

Every pattern in `FSTAB_PATTERNS` has the shape `\bLIT`, `\bLIT\b` or
`\bLIT[=,]?[^,\s]*`; the embedding represents each as a literal plus a tail
kind and implements Python's `re.sub`/`re.search` for exactly these shapes as
left-to-right scanners over the character list (leftmost match, greedy
quantifiers, global substitution, scanning resuming after each match on the
original text). Word characters (`\w`) and whitespace (`\s`) are modelled by
their ASCII classes, which covers fstab content. -/

/-- Python regex `\w` (ASCII): letters, digits, underscore. -/
def isWordChar (c : Char) : Bool :=
  c.isAlphanum || c == '_'

/-- Python regex `\s` (ASCII): space, tab, newline, CR, VT, FF. -/
def isSpaceChar (c : Char) : Bool :=
  c == ' ' || c == '\t' || c == '\n' || c == '\r' || c == '\x0b' || c == '\x0c'

/-- Tail shapes occurring in `FSTAB_PATTERNS` after the literal:
`\b` (end word boundary), `[^,\s]*`, or `[=,]?[^,\s]*`. -/
inductive TailKind
  | wordEnd
  | star
  | optStar
deriving DecidableEq, Repr

/-- One compiled fstab pattern: leading `\b`, a literal, a tail, and the
replacement text. -/
structure TokPat where
  lit : List Char
  tail : TailKind
  repl : List Char
deriving DecidableEq, Repr

/-- Length of the greedy `[^,\s]*` match: the longest prefix free of commas
and whitespace. -/
def countNonStop : List Char → Nat
  | [] => 0
  | c :: cs => if c == ',' || isSpaceChar c then 0 else countNonStop cs + 1

/-- Whether a string starts with a word character (for the trailing `\b`). -/
def headIsWord : List Char → Bool
  | [] => false
  | c :: _ => isWordChar c

/-- Match length of pattern `p` anchored at the start of `s` (the leading
`\b` is checked by the callers via the previous character). `none` means no
match at this position. -/
def tryTokLen (p : TokPat) (s : List Char) : Option Nat :=
  if p.lit.isPrefixOf s then
    match p.tail with
    | .wordEnd =>
      if headIsWord (s.drop p.lit.length) then none else some p.lit.length
    | .star => some (p.lit.length + countNonStop (s.drop p.lit.length))
    | .optStar =>
      match s.drop p.lit.length with
      | c :: cs =>
        if c == '=' || c == ',' then some (p.lit.length + 1 + countNonStop cs)
        else some (p.lit.length + countNonStop (c :: cs))
      | [] => some p.lit.length
  else none

/-- Python `re.sub(p, p.repl, s)` for a token pattern: scan left to right;
`skip` counts match characters still to consume (their replacement is already
emitted), `pw` records whether the previous character is a word character
(start of string: false), exactly the information `\b` needs. -/
def gsubTok (p : TokPat) : Nat → Bool → List Char → List Char
  | _, _, [] => []
  | n + 1, _, c :: cs => gsubTok p n (isWordChar c) cs
  | 0, pw, c :: cs =>
    match (if pw then none else tryTokLen p (c :: cs)) with
    | some len => p.repl ++ gsubTok p (len - 1) (isWordChar c) cs
    | none => c :: gsubTok p 0 (isWordChar c) cs

/-- Python `re.search(p, s).is_some`: does the pattern match at any position
(with its leading word boundary). -/
def hasTok (p : TokPat) : Bool → List Char → Bool
  | _, [] => false
  | pw, c :: cs =>
    (!pw && (tryTokLen p (c :: cs)).isSome) || hasTok p (isWordChar c) cs

/-- Embeds the `FSTAB_PATTERNS` table, in its insertion (iteration) order. -/
def fstabPatterns : List (String × TokPat) :=
  [("verify", ⟨"verify".data, .wordEnd, []⟩),
   ("avb", ⟨"avb".data, .optStar, []⟩),
   ("avb_keys", ⟨"avb_keys=".data, .star, []⟩),
   ("verity", ⟨"verity".data, .wordEnd, []⟩),
   ("support_scfs", ⟨"support_scfs".data, .wordEnd, []⟩),
   ("forceencrypt", ⟨"forceencrypt=".data, .star, "encryptable=footer".data⟩),
   ("forcefdeorfbe", ⟨"forcefdeorfbe=".data, .star, "encryptable=footer".data⟩),
   ("fileencryption", ⟨"fileencryption=".data, .star, []⟩),
   ("metadata_encryption", ⟨"metadata_encryption=".data, .star, []⟩)]

/-- Python `re.sub(r',{2,}', ',', s)`: collapse each maximal run of two or
more commas to one. The flag records "inside a collapsed run, swallowing its
remaining commas". -/
def subCommaRuns : Bool → List Char → List Char
  | _, [] => []
  | true, ',' :: cs => subCommaRuns true cs
  | true, c :: cs => c :: subCommaRuns false cs
  | false, ',' :: cs =>
    match cs with
    | ',' :: _ => ',' :: subCommaRuns true cs
    | _ => ',' :: subCommaRuns false cs
  | false, c :: cs => c :: subCommaRuns false cs

/-- Python `re.sub(r',(\s|$)', r'\1', s)`: drop a comma directly followed by
a whitespace character (keeping the whitespace, and skipping past it as part
of the match) or by the end of the string. -/
def subCommaSpace : List Char → List Char
  | [] => []
  | [','] => []
  | ',' :: c :: cs =>
    if isSpaceChar c then c :: subCommaSpace cs
    else ',' :: subCommaSpace (c :: cs)
  | c :: cs => c :: subCommaSpace cs

/-- Python `re.sub(r'\s+', ' ', s)`: collapse each maximal whitespace run to
a single space. The flag records "inside a run whose space is already
emitted". -/
def subSpaceRuns : Bool → List Char → List Char
  | _, [] => []
  | true, c :: cs =>
    if isSpaceChar c then subSpaceRuns true cs
    else c :: subSpaceRuns false cs
  | false, c :: cs =>
    if isSpaceChar c then ' ' :: subSpaceRuns true cs
    else c :: subSpaceRuns false cs

/-- Python `str.strip()` (ASCII whitespace). -/
def stripChars (s : List Char) : List Char :=
  ((s.dropWhile isSpaceChar).reverse.dropWhile isSpaceChar).reverse

/-- The comma/whitespace normalisation tail of `patch_fstab_line`. -/
def cleanupLine (s : List Char) : List Char :=
  stripChars (subSpaceRuns false (subCommaSpace (subCommaRuns false s)))

/-- One iteration of the `for name, (pattern, replacement) in
FSTAB_PATTERNS.items()` loop: substitute only when `re.search` finds a match,
and record the pattern name. -/
def applyPattern (acc : List Char × List String) (np : String × TokPat) :
    List Char × List String :=
  if hasTok np.2 false acc.1 then
    (gsubTok np.2 0 false acc.1, acc.2 ++ [np.1])
  else acc

/-- Embeds `patch_fstab_line`: run the pattern table, then normalise commas
and whitespace; returns the patched line and the list of applied pattern
names. -/
def patch_fstab_line (line : String) : String × List String :=
  let r := fstabPatterns.foldl applyPattern (line.data, [])
  (⟨cleanupLine r.1⟩, r.2)

/-! ### Specification-side helpers and concrete buffers -/

/-- Sum of the requested sizes of the partitions belonging to group `g`. -/
def groupSum (ns : String → Option Nat) (parts : List PartitionInfo)
    (g : String) : Nat :=
  ((parts.filter (fun p => groupOf p == g)).map (requestedSize ns)).sum

/-- Sum of the requested sizes of all partitions. -/
def totalRequested (ns : String → Option Nat)
    (parts : List PartitionInfo) : Nat :=
  (parts.map (requestedSize ns)).sum

/-- Buffer with only the ext4 magic, which sits at offsets 1080–1081 —
beyond the first 1028 bytes. -/
def bufExtTail : List Nat := List.replicate 1080 0 ++ [0x53, 0xef]

/-- All-zero buffer of the same length as `bufExtTail`. -/
def bufAllZero : List Nat := List.replicate 1082 0

/-- Buffer carrying both the EROFS magic at offset 1024 and the ext4 magic
at offset 1080. -/
def bufBothMagic : List Nat :=
  List.replicate 1024 0 ++ [0xe2, 0xe1, 0xf5, 0xe0] ++ List.replicate 52 0
    ++ [0x53, 0xef]

/-- Buffer carrying both the sparse magic at offset 0 and the ext4 magic at
offset 1080. -/
def bufSparseExt : List Nat :=
  [0x3a, 0xff, 0x26, 0xed] ++ List.replicate 1076 0 ++ [0x53, 0xef]

/-! ### Word-run view of fstab lines

Every pattern of `fstabPatterns` anchors on a maximal run of word characters
(the literal's word part starts at a `\b`, i.e. at the start of such a run),
so matching is characterised by the list of word runs of the line, each
annotated with the character that follows it. These definitions support the
idempotence analysis of `patch_fstab_line`. -/

/-- Maximal word-character runs of a string, each paired with the character
immediately following the run. `cur` holds the currently open run reversed;
`nx` is the annotation to use for a run still open at the end of the string
(`none` for a string followed by nothing). -/
def runsAuxCtx (nx : Option Char) : List Char → List Char →
    List (List Char × Option Char)
  | cur, [] => if cur.isEmpty then [] else [(cur.reverse, nx)]
  | cur, c :: cs =>
    if isWordChar c then runsAuxCtx nx (c :: cur) cs
    else if cur.isEmpty then runsAuxCtx nx [] cs
    else (cur.reverse, some c) :: runsAuxCtx nx [] cs

/-- The annotated word runs of a string. -/
def runsAnn (s : List Char) : List (List Char × Option Char) :=
  runsAuxCtx none [] s

/-- Run-level reading of a pattern match: `\bLIT\b` matches a run equal to
the literal; `\bLIT=[^,\s]*` matches a run equal to the literal's word part
followed by `'='`; `\bLIT[=,]?[^,\s]*` matches any run having the literal as
a prefix. -/
def badRun (p : TokPat) (rn : List Char × Option Char) : Bool :=
  match p.tail with
  | .wordEnd => rn.1 == p.lit
  | .star => rn.1 == p.lit.dropLast && rn.2 == some '='
  | .optStar => p.lit.isPrefixOf rn.1

/-- Run-content part of `badRun` (ignoring the annotation). -/
def contentHit (p : TokPat) (r : List Char) : Bool :=
  match p.tail with
  | .wordEnd => r == p.lit
  | .star => r == p.lit.dropLast
  | .optStar => p.lit.isPrefixOf r

/-- Structural well-formedness of the patterns in `fstabPatterns`: the
literal's word part is nonempty and all word characters; a `star` literal
ends in `'='`. -/
def wfTok (p : TokPat) : Bool :=
  match p.tail with
  | .wordEnd => !p.lit.isEmpty && p.lit.all isWordChar
  | .star => !p.lit.dropLast.isEmpty && p.lit.dropLast.all isWordChar
      && p.lit.getLast? == some '='
  | .optStar => !p.lit.isEmpty && p.lit.all isWordChar

/-- The only replacements occurring in the table: empty, or the literal text
`encryptable=footer`. -/
def replOk (p : TokPat) : Bool :=
  p.repl.isEmpty || p.repl == "encryptable=footer".data

/-- No pattern of the table can match either word run contributed by the
replacement text `encryptable=footer`. -/
def replSafe (p : TokPat) : Bool :=
  !contentHit p "encryptable".data && !contentHit p "footer".data

/-- All hypotheses the idempotence argument needs of one pattern. -/
def GoodPat (p : TokPat) : Bool :=
  wfTok p && replOk p && replSafe p

/-- Whether a string starts with a non-word character or is empty. -/
def headNonword : List Char → Bool
  | [] => true
  | c :: _ => !isWordChar c

/-- No two adjacent commas (so `,{2,}` cannot match). -/
def noCommaPair : List Char → Bool
  | ',' :: ',' :: _ => false
  | _ :: cs => noCommaPair cs
  | [] => true

/-- No comma directly followed by whitespace and no trailing comma (so
`,(\s|$)` cannot match). -/
def noCommaWs : List Char → Bool
  | [] => true
  | [','] => false
  | ',' :: c :: cs => !isSpaceChar c && noCommaWs (c :: cs)
  | _ :: cs => noCommaWs cs

/-- Every whitespace character is a single space not followed by further
whitespace (so `\s+ -> ' '` is the identity). -/
def wsCollapsed : List Char → Bool
  | [] => true
  | c :: cs =>
    if isSpaceChar c then
      c == ' '
        && (match cs with | c2 :: _ => !isSpaceChar c2 | [] => true)
        && wsCollapsed cs
    else wsCollapsed cs

/-- Neither end of the string is whitespace (so `strip` is the identity). -/
def noEdgeWs (s : List Char) : Bool :=
  (match s.head? with | some c => !isSpaceChar c | none => true)
    && (match s.getLast? with | some c => !isSpaceChar c | none => true)

/-! ## Theorems -/

/-! ### Shared helper lemmas -/

theorem writeBytes_length (d : List Nat) :
    ∀ (off : Nat) (v : List Nat), (writeBytes d off v).length = d.length := by
  induction d with
  | nil => intro off v; simp [writeBytes]
  | cons x ds ih =>
    intro off v
    cases off with
    | zero =>
      cases v with
      | nil => simp [writeBytes]
      | cons y vs => simp [writeBytes, ih]
    | succ n => simp [writeBytes, ih]

theorem readAt_of_take_eq {b1 b2 : List Nat} {N off len : Nat}
    (h : b1.take N = b2.take N) (hle : off + len ≤ N) :
    readAt b1 off len = readAt b2 off len := by
  have key : ∀ b : List Nat, readAt b off len = ((b.take N).drop off).take len := by
    intro b
    rw [List.drop_take, List.take_take]
    unfold readAt
    congr 1
    omega
  rw [key b1, key b2, h]

theorem assocGet_assocSet_self {α : Type} (m : List (String × α)) (k : String)
    (v : α) : assocGet (assocSet m k v) k = some v := by
  induction m with
  | nil => simp [assocSet, assocGet]
  | cons hd tl ih =>
    by_cases h : hd.1 = k
    · simp [assocSet, assocGet, h]
    · simp [assocSet, assocGet, h, ih]

/-! ### C9 — minimal vbmeta fallback -/

/-- C9: the fallback vbmeta constructor is a fixed constant (hence every
invocation yields the identical bytes): exactly 4096 bytes, magic `AVB0` in
bytes 0–3, the hash/auth/aux offset and size fields (bytes 32–95, which
include the descriptors offset/size at 80–95) all zero, and the 4-byte
big-endian flags field at offset 120 equal to 2. -/
theorem minimal_vbmeta_layout :
    create_minimal_vbmeta.length = 4096
  ∧ readAt create_minimal_vbmeta 0 4 = [0x41, 0x56, 0x42, 0x30]
  ∧ readAt create_minimal_vbmeta 32 64 = List.replicate 64 0
  ∧ readAt create_minimal_vbmeta 80 16 = List.replicate 16 0
  ∧ readAt create_minimal_vbmeta 120 4 = [0, 0, 0, 2] := by
  refine ⟨?_, by decide, by decide, by decide, by decide⟩
  have h6 : List.range 6 = [0, 1, 2, 3, 4, 5] := rfl
  simp only [create_minimal_vbmeta, h6, List.foldl, writeBytes_length,
    List.length_replicate]

/-! ### C2 — format sniffer -/

/-- C2 counterexample: the claim fails as stated. First, detection is not a
function of the first 1028 bytes: `bufExtTail` and `bufAllZero` agree on
their first 1028 bytes yet classify differently (the ext4 magic offset
`0x438 = 1080` lies beyond 1028). Second, a buffer with the EROFS magic at
1024 need not classify as EROFS: `bufBothMagic` also carries the ext4 magic,
which is checked first. Third, a buffer with the ext4 magic need not
classify as ext4: `bufSparseExt` starts with the sparse magic, which is
checked first. -/
theorem detect_fs_claim_counterexample :
    (bufExtTail.take 1028 = bufAllZero.take 1028
      ∧ classify_image bufExtTail ≠ classify_image bufAllZero)
  ∧ (is_erofs_image bufBothMagic = true
      ∧ classify_image bufBothMagic ≠ FsType.erofs)
  ∧ (is_ext4_image bufSparseExt = true
      ∧ classify_image bufSparseExt ≠ FsType.ext4) := by
  refine ⟨⟨by decide, by decide⟩, ⟨by decide, by decide⟩, by decide, by decide⟩

/-- C2 (amended): classification is a pure function of the first 1082 bytes
of the image; a buffer whose first 4 bytes are the sparse magic is
classified sparse (the sparse check runs first); a non-sparse buffer with
`0x53 0xEF` at offset `0x438` is ext4; a non-sparse buffer without the ext4
magic and with the EROFS magic at offset 1024 is EROFS. -/
theorem detect_fs_amended :
    (∀ b1 b2 : List Nat, b1.take 1082 = b2.take 1082 →
      classify_image b1 = classify_image b2)
  ∧ (∀ b : List Nat, is_sparse_image b = true → classify_image b = .sparse)
  ∧ (∀ b : List Nat, is_sparse_image b = false → is_ext4_image b = true →
      classify_image b = .ext4)
  ∧ (∀ b : List Nat, is_sparse_image b = false → is_ext4_image b = false →
      is_erofs_image b = true → classify_image b = .erofs) := by
  refine ⟨?_, ?_, ?_, ?_⟩
  · intro b1 b2 h
    have hs : is_sparse_image b1 = is_sparse_image b2 := by
      unfold is_sparse_image
      rw [readAt_of_take_eq h (by omega)]
    have he : is_ext4_image b1 = is_ext4_image b2 := by
      unfold is_ext4_image
      rw [readAt_of_take_eq h (by omega)]
    have hr : is_erofs_image b1 = is_erofs_image b2 := by
      unfold is_erofs_image
      rw [readAt_of_take_eq h (by omega)]
    unfold classify_image detect_fs_type
    rw [hs, he, hr]
  · intro b h
    simp [classify_image, h]
  · intro b h1 h2
    simp [classify_image, detect_fs_type, h1, h2]
  · intro b h1 h2 h3
    simp [classify_image, detect_fs_type, h1, h2, h3]

/-- C2 witness: the amended theorem applied at concrete buffers. -/
theorem detect_fs_amended_witness :
    classify_image (List.replicate 1082 0 ++ [7])
        = classify_image (List.replicate 1082 0)
  ∧ classify_image [0x3a, 0xff, 0x26, 0xed] = .sparse
  ∧ classify_image bufExtTail = .ext4
  ∧ classify_image (List.replicate 1024 0 ++ [0xe2, 0xe1, 0xf5, 0xe0]) = .erofs :=
  ⟨detect_fs_amended.1 _ _ (by decide),
   detect_fs_amended.2.1 _ (by decide),
   detect_fs_amended.2.2.1 _ (by decide) (by decide),
   detect_fs_amended.2.2.2 _ (by decide) (by decide) (by decide)⟩

/-! ### C1 — vbmeta size invariant -/

/-- C1: for a target of original size `orig`, an oversize candidate is fatal
(the temp candidate is deleted, nothing is written to the destination, and
the whole batch aborts immediately with an error, whatever targets remain);
a candidate of at most `orig` bytes is zero-padded and written so the final
artifact is exactly `orig` bytes. -/
theorem vbmeta_patch_size_invariant (orig : Nat) (cand : List Nat)
    (rest : List (Nat × List Nat)) :
    (cand.length > orig →
      patch_vbmeta_target orig cand = ({ dest := none, temp := none }, true)
      ∧ patch_all_vbmeta ((orig, cand) :: rest)
          = .error "CRITICAL: Patched size > Original. Corrupt risk!")
  ∧ (cand.length ≤ orig →
      (patch_vbmeta_target orig cand).2 = false
      ∧ (patch_vbmeta_target orig cand).1.temp = none
      ∧ (patch_vbmeta_target orig cand).1.dest
          = some (cand ++ List.replicate (orig - cand.length) 0)
      ∧ (cand ++ List.replicate (orig - cand.length) 0).length = orig) := by
  constructor
  · intro h
    have ht : patch_vbmeta_target orig cand = ({ dest := none, temp := none }, true) := by
      simp [patch_vbmeta_target, h]
    refine ⟨ht, ?_⟩
    simp [patch_all_vbmeta, ht]
  · intro h
    have hnot : ¬ cand.length > orig := by omega
    refine ⟨by simp [patch_vbmeta_target, hnot], by simp [patch_vbmeta_target, hnot],
      by simp [patch_vbmeta_target, hnot], ?_⟩
    simp
    omega

/-- C1 witness: `orig = 8192` with an 8300-byte candidate aborts the batch;
a 4096-byte candidate yields exactly 8192 bytes, 4096 of them zero padding. -/
theorem vbmeta_patch_size_invariant_witness :
    (List.replicate 8300 (1 : Nat)).length > 8192
  ∧ patch_all_vbmeta [(8192, List.replicate 8300 1)]
      = .error "CRITICAL: Patched size > Original. Corrupt risk!"
  ∧ (List.replicate 4096 (1 : Nat)).length ≤ 8192
  ∧ (patch_vbmeta_target 8192 (List.replicate 4096 1)).1.dest
      = some (List.replicate 4096 1 ++ List.replicate 4096 0)
  ∧ (List.replicate 4096 (1 : Nat) ++ List.replicate 4096 0).length = 8192 := by
  have hbig : (List.replicate 8300 (1 : Nat)).length > 8192 := by
    rw [List.length_replicate]
    omega
  have hsmall : (List.replicate 4096 (1 : Nat)).length ≤ 8192 := by
    rw [List.length_replicate]
    omega
  have h1 := (vbmeta_patch_size_invariant 8192 (List.replicate 8300 1) []).1 hbig
  have h2 := (vbmeta_patch_size_invariant 8192 (List.replicate 4096 1) []).2 hsmall
  refine ⟨hbig, h1.2, hsmall, ?_, ?_⟩
  · have h3 := h2.2.2.1
    rw [List.length_replicate] at h3
    have e : (8192 - 4096 : Nat) = 4096 := rfl
    rw [e] at h3
    exact h3
  · rw [List.length_append, List.length_replicate, List.length_replicate]

/-! ### C4 — slot resolution -/

/-- C4: slot resolution on `{"system_a","system_b","system"}` yields
`{"system_a","system_b"}` under `both` (base dropped because slot variants
exist), `{"system_a"}` under `auto` and under `A`; `{"vendor"}` alone maps to
itself under all four modes. The same behaviour holds for the filename form
used by `scan_vbmeta_targets`. -/
theorem slot_resolution_cases :
    (resolve_slots .both ["system_a", "system_b", "system"]
        = ["system_a", "system_b"]
      ∧ resolve_slots .auto ["system_a", "system_b", "system"] = ["system_a"]
      ∧ resolve_slots .A ["system_a", "system_b", "system"] = ["system_a"])
  ∧ (resolve_slots .auto ["vendor"] = ["vendor"]
      ∧ resolve_slots .A ["vendor"] = ["vendor"]
      ∧ resolve_slots .B ["vendor"] = ["vendor"]
      ∧ resolve_slots .both ["vendor"] = ["vendor"])
  ∧ (scan_vbmeta_filter .both
        ["vbmeta_system_a.img", "vbmeta_system_b.img", "vbmeta_system.img"]
        = ["vbmeta_system_a.img", "vbmeta_system_b.img"]
      ∧ scan_vbmeta_filter .auto
        ["vbmeta_system_a.img", "vbmeta_system_b.img", "vbmeta_system.img"]
        = ["vbmeta_system_a.img"]
      ∧ scan_vbmeta_filter .A
        ["vbmeta_system_a.img", "vbmeta_system_b.img", "vbmeta_system.img"]
        = ["vbmeta_system_a.img"]
      ∧ scan_vbmeta_filter .auto ["vbmeta.img"] = ["vbmeta.img"]
      ∧ scan_vbmeta_filter .A ["vbmeta.img"] = ["vbmeta.img"]
      ∧ scan_vbmeta_filter .B ["vbmeta.img"] = ["vbmeta.img"]
      ∧ scan_vbmeta_filter .both ["vbmeta.img"] = ["vbmeta.img"]) := by
  decide

theorem strictScan_ok_iff (ns : String → Option Nat) (l : List PartitionInfo) :
    strictScan ns l = .ok () ↔ ∀ p ∈ l, requestedSize ns p ≤ p.size := by
  induction l with
  | nil => simp [strictScan]
  | cons p rest ih =>
    by_cases h : requestedSize ns p > p.size
    · constructor
      · intro hok
        exfalso
        simp [strictScan, h] at hok
      · intro hall
        exact absurd (hall p (by simp)) (by omega)
    · have hle : requestedSize ns p ≤ p.size := by omega
      simp [strictScan, h, ih, hle]

theorem strictScan_error (ns : String → Option Nat) (l : List PartitionInfo)
    (e : ResizeError) :
    strictScan ns l = .error e →
    ∃ p ∈ l, requestedSize ns p > p.size
      ∧ e = .partOverflow p.name (requestedSize ns p - p.size) := by
  induction l with
  | nil => intro h; simp [strictScan] at h
  | cons p rest ih =>
    intro h
    by_cases hc : requestedSize ns p > p.size
    · simp [strictScan, hc] at h
      exact ⟨p, by simp, hc, h.symm⟩
    · simp [strictScan, hc] at h
      obtain ⟨q, hq, h1, h2⟩ := ih h
      exact ⟨q, by simp [hq], h1, h2⟩

/-- C5: strict-mode resize validation succeeds iff every partition's
requested size (defaulting to its recorded size) is at most its recorded
size, and any failure names an offending grown partition together with the
overflow amount. -/
theorem super_resize_strict_spec (ns : String → Option Nat)
    (meta : SuperMetadata) :
    (validate_resize_strict ns meta = .ok ()
      ↔ ∀ p ∈ meta.partitions, requestedSize ns p ≤ p.size)
  ∧ (∀ e, validate_resize_strict ns meta = .error e →
      ∃ p ∈ meta.partitions, requestedSize ns p > p.size
        ∧ e = .partOverflow p.name (requestedSize ns p - p.size)) :=
  ⟨strictScan_ok_iff ns meta.partitions,
   fun e h => strictScan_error ns meta.partitions e h⟩

/-- C5 witness: a shrink-only request validates, and growing `vendor` from
50 to 80 fails naming `vendor` and overflow 30. -/
theorem super_resize_strict_spec_witness :
    validate_resize_strict (fun n => if n == "system" then some 90 else none)
      ⟨1000, [], [⟨"system", some "default", 100⟩, ⟨"vendor", none, 50⟩]⟩ = .ok ()
  ∧ ∃ p ∈ ([⟨"system", some "default", 100⟩, ⟨"vendor", none, 50⟩] : List PartitionInfo),
      requestedSize (fun n => if n == "vendor" then some 80 else none) p > p.size
      ∧ (ResizeError.partOverflow "vendor" 30)
          = .partOverflow p.name
            (requestedSize (fun n => if n == "vendor" then some 80 else none) p - p.size) :=
  ⟨(super_resize_strict_spec (fun n => if n == "system" then some 90 else none)
      ⟨1000, [], [⟨"system", some "default", 100⟩, ⟨"vendor", none, 50⟩]⟩).1.mpr (by decide),
   (super_resize_strict_spec (fun n => if n == "vendor" then some 80 else none)
      ⟨1000, [], [⟨"system", some "default", 100⟩, ⟨"vendor", none, 50⟩]⟩).2 _ rfl⟩



/-- C6: the dirty tracker never grants clean status implicitly: a detected
change forces and returns dirty; an unchanged tree returns the stored flag
with the store untouched (so a dirty partition stays dirty), and only the
explicit mark-clean-after-extract step sets the flag to false. -/
theorem dirty_no_implicit_clean (current : String → SourceSnapshot)
    (st : DirtyStore) (name : String) :
    (check_partition_changed current st name = true →
      auto_detect_dirty current st name = (true, set_dirty st name true)
      ∧ is_dirty (set_dirty st name true) name = true)
  ∧ (check_partition_changed current st name = false →
      auto_detect_dirty current st name = (is_dirty st name, st))
  ∧ (is_dirty st name = true →
      is_dirty (auto_detect_dirty current st name).2 name = true)
  ∧ is_dirty (mark_clean_after_extract current st name) name = false := by
  have hset : ∀ b, is_dirty (set_dirty st name b) name = b := by
    intro b
    simp [is_dirty, set_dirty, assocGet_assocSet_self]
  refine ⟨?_, ?_, ?_, ?_⟩
  · intro h
    exact ⟨by simp [auto_detect_dirty, h], hset true⟩
  · intro h
    simp [auto_detect_dirty, h]
  · intro h
    by_cases hc : check_partition_changed current st name = true
    · simp [auto_detect_dirty, hc, hset true]
    · simp [auto_detect_dirty, hc, h]
  · simp [mark_clean_after_extract, is_dirty, set_dirty, assocGet_assocSet_self]

/-- C6 witness: the theorem applied at a concrete store where the tree is
unchanged but the stored flag is dirty, and at one where a change is
detected. -/
theorem dirty_no_implicit_clean_witness :
    auto_detect_dirty (fun _ => ⟨1, 2, 3⟩)
        ⟨[("system", true)], [("system", ⟨1, 2, 3⟩)]⟩ "system"
      = (true, ⟨[("system", true)], [("system", ⟨1, 2, 3⟩)]⟩)
  ∧ auto_detect_dirty (fun _ => ⟨9, 2, 3⟩) ⟨[("system", false)], []⟩ "system"
      = (true, set_dirty ⟨[("system", false)], []⟩ "system" true)
  ∧ is_dirty (mark_clean_after_extract (fun _ => ⟨1, 2, 3⟩)
      ⟨[("system", true)], []⟩ "system") "system" = false := by
  refine ⟨?_, ?_, ?_⟩
  · have h := (dirty_no_implicit_clean (fun _ => ⟨1, 2, 3⟩)
      ⟨[("system", true)], [("system", ⟨1, 2, 3⟩)]⟩ "system").2.1 (by decide)
    rw [h]
    decide
  · exact ((dirty_no_implicit_clean (fun _ => ⟨9, 2, 3⟩)
      ⟨[("system", false)], []⟩ "system").1 (by decide)).1
  · exact (dirty_no_implicit_clean (fun _ => ⟨1, 2, 3⟩)
      ⟨[("system", true)], []⟩ "system").2.2.2

/-- C7: a partition absent from the stored dirty mapping reads as dirty; a
partition with no stored snapshot reads as changed; with a stored snapshot,
changed holds iff file count, total size, or newest mtime differ. -/
theorem dirty_unknown_defaults (current : String → SourceSnapshot)
    (st : DirtyStore) (name : String) :
    (assocGet st.flags name = none → is_dirty st name = true)
  ∧ (assocGet st.snapshots name = none →
      check_partition_changed current st name = true)
  ∧ (∀ saved, assocGet st.snapshots name = some saved →
      (check_partition_changed current st name = true ↔
        ((current name).file_count ≠ saved.file_count
          ∨ (current name).total_size ≠ saved.total_size
          ∨ (current name).newest_mtime_ns ≠ saved.newest_mtime_ns))) := by
  refine ⟨?_, ?_, ?_⟩
  · intro h
    simp [is_dirty, h]
  · intro h
    simp [check_partition_changed, h]
  · intro saved h
    simp [check_partition_changed, h]
    tauto

/-- C7 witness: the theorem applied at a store that knows nothing about
`"vendor"`, and at a store holding a snapshot for `"system"`. -/
theorem dirty_unknown_defaults_witness :
    is_dirty ⟨[("system", false)], []⟩ "vendor" = true
  ∧ check_partition_changed (fun _ => ⟨1, 2, 3⟩) ⟨[], []⟩ "vendor" = true
  ∧ check_partition_changed (fun _ => ⟨1, 2, 3⟩)
      ⟨[], [("system", ⟨1, 2, 9⟩)]⟩ "system" = true := by
  refine ⟨?_, ?_, ?_⟩
  · exact (dirty_unknown_defaults (fun _ => ⟨1, 2, 3⟩)
      ⟨[("system", false)], []⟩ "vendor").1 (by decide)
  · exact (dirty_unknown_defaults (fun _ => ⟨1, 2, 3⟩) ⟨[], []⟩ "vendor").2.1 (by decide)
  · exact ((dirty_unknown_defaults (fun _ => ⟨1, 2, 3⟩)
      ⟨[], [("system", ⟨1, 2, 9⟩)]⟩ "system").2.2 ⟨1, 2, 9⟩ (by decide)).mpr (by decide)

theorem lk_bumpTotal (m : List (String × Nat)) (g : String) (n : Nat)
    (g' : String) :
    (assocGet (bumpTotal m g n) g').getD 0
      = (assocGet m g').getD 0 + (if g == g' then n else 0) := by
  induction m with
  | nil =>
    by_cases h : g = g'
    · simp [bumpTotal, assocGet, h]
    · simp [bumpTotal, assocGet, h, Ne.symm h]
  | cons hd tl ih =>
    obtain ⟨k, v⟩ := hd
    by_cases h : k = g
    · by_cases h2 : g = g'
      · simp [bumpTotal, assocGet, h, h2]
      · have hk : k ≠ g' := by rw [h]; exact h2
        simp [bumpTotal, assocGet, h, h2, hk]
    · by_cases h2 : k = g'
      · have hg : g ≠ g' := by
          intro he
          exact h (h2.trans he.symm)
        simp [bumpTotal, assocGet, h, h2, hg, Ne.symm hg]
      · simp [bumpTotal, assocGet, h, h2, ih]

theorem keys_bumpTotal (m : List (String × Nat)) (g : String) (n : Nat) :
    (bumpTotal m g n).map Prod.fst
      = if g ∈ m.map Prod.fst then m.map Prod.fst
        else m.map Prod.fst ++ [g] := by
  induction m with
  | nil => simp [bumpTotal]
  | cons hd tl ih =>
    obtain ⟨k, v⟩ := hd
    by_cases h : k = g
    · simp [bumpTotal, h]
    · by_cases h2 : g ∈ tl.map Prod.fst
      · simp [bumpTotal, h, h2, ih, Ne.symm h]
      · simp [bumpTotal, h, h2, ih, Ne.symm h]

theorem mem_keys_bumpTotal (m : List (String × Nat)) (g : String) (n : Nat)
    (g' : String) :
    g' ∈ (bumpTotal m g n).map Prod.fst
      ↔ g' ∈ m.map Prod.fst ∨ g' = g := by
  rw [keys_bumpTotal]
  by_cases h : g ∈ m.map Prod.fst
  · rw [if_pos h]
    constructor
    · exact Or.inl
    · rintro (hm | he)
      · exact hm
      · exact he ▸ h
  · rw [if_neg h]
    simp

theorem nodup_keys_bumpTotal (m : List (String × Nat)) (g : String) (n : Nat)
    (h : (m.map Prod.fst).Nodup) :
    ((bumpTotal m g n).map Prod.fst).Nodup := by
  rw [keys_bumpTotal]
  by_cases hm : g ∈ m.map Prod.fst
  · rw [if_pos hm]
    exact h
  · rw [if_neg hm]
    exact List.Nodup.append h (List.nodup_singleton g)
      (List.disjoint_singleton.mpr hm)

theorem entry_eq_lk (m : List (String × Nat)) :
    (m.map Prod.fst).Nodup → ∀ (g : String) (t : Nat),
    (g, t) ∈ m → t = (assocGet m g).getD 0 := by
  induction m with
  | nil => intro _ g t h; simp at h
  | cons hd tl ih =>
    obtain ⟨k, v⟩ := hd
    intro hnd g t h
    rw [List.map_cons] at hnd
    have hnd' := List.nodup_cons.mp hnd
    rcases List.mem_cons.mp h with h1 | h1
    · have hg : g = k := congrArg Prod.fst h1
      have ht : t = v := congrArg Prod.snd h1
      simp [assocGet, hg.symm, ht]
    · have hk : k ≠ g := by
        intro he
        exact hnd'.1 (he ▸ List.mem_map.mpr ⟨(g, t), h1, rfl⟩)
      simp [assocGet, hk]
      exact ih hnd'.2 g t h1

theorem keys_mem_exists (m : List (String × Nat)) (g : String)
    (h : g ∈ m.map Prod.fst) : ∃ t, (g, t) ∈ m := by
  obtain ⟨x, hm, he⟩ := List.mem_map.mp h
  obtain ⟨k, v⟩ := x
  have : k = g := he
  subst this
  exact ⟨v, hm⟩

theorem sum_bumpTotal (m : List (String × Nat)) (g : String) (n : Nat) :
    ((bumpTotal m g n).map Prod.snd).sum = (m.map Prod.snd).sum + n := by
  induction m with
  | nil => simp [bumpTotal]
  | cons hd tl ih =>
    obtain ⟨k, v⟩ := hd
    by_cases h : k = g
    · simp [bumpTotal, h]
      omega
    · simp [bumpTotal, h, ih]
      omega



theorem groupSum_cons (ns : String → Option Nat) (p : PartitionInfo)
    (rest : List PartitionInfo) (g : String) :
    groupSum ns (p :: rest) g
      = (if groupOf p == g then requestedSize ns p else 0)
        + groupSum ns rest g := by
  by_cases h : groupOf p == g
  · simp [groupSum, List.filter_cons, h]
  · simp [groupSum, List.filter_cons, h]

theorem lk_foldl_bump (ns : String → Option Nat) (parts : List PartitionInfo) :
    ∀ (m : List (String × Nat)) (g : String),
    (assocGet (parts.foldl
        (fun m p => bumpTotal m (groupOf p) (requestedSize ns p)) m) g).getD 0
      = (assocGet m g).getD 0 + groupSum ns parts g := by
  induction parts with
  | nil => intro m g; simp [groupSum]
  | cons p rest ih =>
    intro m g
    rw [List.foldl_cons, ih, lk_bumpTotal, groupSum_cons]
    omega

theorem lk_groupTotals (ns : String → Option Nat) (parts : List PartitionInfo)
    (g : String) :
    (assocGet (groupTotals ns parts) g).getD 0 = groupSum ns parts g := by
  unfold groupTotals
  rw [lk_foldl_bump]
  simp [assocGet]

theorem mem_keys_foldl_bump (ns : String → Option Nat)
    (parts : List PartitionInfo) :
    ∀ (m : List (String × Nat)) (g : String),
    (g ∈ (parts.foldl
        (fun m p => bumpTotal m (groupOf p) (requestedSize ns p)) m).map Prod.fst
      ↔ g ∈ m.map Prod.fst ∨ g ∈ parts.map groupOf) := by
  induction parts with
  | nil => intro m g; simp
  | cons p rest ih =>
    intro m g
    rw [List.foldl_cons, ih, mem_keys_bumpTotal]
    simp
    tauto

theorem mem_keys_groupTotals (ns : String → Option Nat)
    (parts : List PartitionInfo) (g : String) :
    g ∈ (groupTotals ns parts).map Prod.fst ↔ g ∈ parts.map groupOf := by
  unfold groupTotals
  rw [mem_keys_foldl_bump]
  simp

theorem nodup_keys_foldl_bump (ns : String → Option Nat)
    (parts : List PartitionInfo) :
    ∀ (m : List (String × Nat)), ((m.map Prod.fst).Nodup) →
    ((parts.foldl
        (fun m p => bumpTotal m (groupOf p) (requestedSize ns p)) m).map
          Prod.fst).Nodup := by
  induction parts with
  | nil => intro m h; simpa using h
  | cons p rest ih =>
    intro m h
    rw [List.foldl_cons]
    exact ih _ (nodup_keys_bumpTotal _ _ _ h)

theorem nodup_keys_groupTotals (ns : String → Option Nat)
    (parts : List PartitionInfo) :
    ((groupTotals ns parts).map Prod.fst).Nodup := by
  unfold groupTotals
  exact nodup_keys_foldl_bump ns parts [] (by simp)

theorem sum_foldl_bump (ns : String → Option Nat)
    (parts : List PartitionInfo) :
    ∀ (m : List (String × Nat)),
    ((parts.foldl
        (fun m p => bumpTotal m (groupOf p) (requestedSize ns p)) m).map
          Prod.snd).sum
      = (m.map Prod.snd).sum + totalRequested ns parts := by
  induction parts with
  | nil => intro m; simp [totalRequested]
  | cons p rest ih =>
    intro m
    rw [List.foldl_cons, ih, sum_bumpTotal]
    simp [totalRequested]
    omega

theorem sum_groupTotals (ns : String → Option Nat)
    (parts : List PartitionInfo) :
    ((groupTotals ns parts).map Prod.snd).sum = totalRequested ns parts := by
  unfold groupTotals
  rw [sum_foldl_bump]
  simp

theorem autoGroupScan_ok_iff (meta : SuperMetadata)
    (l : List (String × Nat)) :
    autoGroupScan meta l = .ok ()
      ↔ ∀ gt ∈ l, gt.2 ≤ dictGet meta.groups gt.1 meta.capacity := by
  induction l with
  | nil => simp [autoGroupScan]
  | cons gt rest ih =>
    obtain ⟨g, t⟩ := gt
    by_cases h : t > dictGet meta.groups g meta.capacity
    · constructor
      · intro hok
        exfalso
        simp [autoGroupScan, h] at hok
      · intro hall
        exact absurd (hall (g, t) (by simp)) (by simp; omega)
    · have hle : t ≤ dictGet meta.groups g meta.capacity := by omega
      simp [autoGroupScan, h, ih, hle]

theorem autoGroupScan_first_overflow (meta : SuperMetadata)
    (l : List (String × Nat)) :
    (∃ gt ∈ l, gt.2 > dictGet meta.groups gt.1 meta.capacity) →
    ∃ g t, (g, t) ∈ l ∧ t > dictGet meta.groups g meta.capacity
      ∧ autoGroupScan meta l
          = .error (.groupOverflow g (t - dictGet meta.groups g meta.capacity)) := by
  induction l with
  | nil => intro h; simp at h
  | cons gt rest ih =>
    intro h
    obtain ⟨g, t⟩ := gt
    by_cases hc : t > dictGet meta.groups g meta.capacity
    · exact ⟨g, t, by simp, hc, by simp [autoGroupScan, hc]⟩
    · obtain ⟨⟨g', t'⟩, hmem, hover⟩ := h
      rcases List.mem_cons.mp hmem with h1 | h1
      · exfalso
        obtain ⟨e1, e2⟩ := Prod.mk.injEq .. ▸ h1
        rw [e1, e2] at hover
        exact hc hover
      · obtain ⟨g2, t2, hm2, ho2, he2⟩ := ih ⟨(g', t'), h1, hover⟩
        exact ⟨g2, t2, by simp [hm2], ho2, by simp [autoGroupScan, hc, he2]⟩



theorem groupBudget_bridge (ns : String → Option Nat) (meta : SuperMetadata) :
    (∀ gt ∈ groupTotals ns meta.partitions,
        gt.2 ≤ dictGet meta.groups gt.1 meta.capacity)
      ↔ (∀ g ∈ meta.partitions.map groupOf,
          groupSum ns meta.partitions g ≤ dictGet meta.groups g meta.capacity) := by
  constructor
  · intro h g hg
    obtain ⟨t, ht⟩ := keys_mem_exists _ g
      ((mem_keys_groupTotals ns meta.partitions g).mpr hg)
    have he := entry_eq_lk _ (nodup_keys_groupTotals ns meta.partitions) g t ht
    rw [lk_groupTotals] at he
    have := h (g, t) ht
    simpa [← he] using this
  · intro h gt hgt
    obtain ⟨g, t⟩ := gt
    have hg : g ∈ (groupTotals ns meta.partitions).map Prod.fst :=
      List.mem_map.mpr ⟨(g, t), hgt, rfl⟩
    have hg' := (mem_keys_groupTotals ns meta.partitions g).mp hg
    have he := entry_eq_lk _ (nodup_keys_groupTotals ns meta.partitions) g t hgt
    rw [lk_groupTotals] at he
    simpa [he] using h g hg'

/-- C3: auto-mode resize validation accepts a request iff every group's
requested total is within that group's budget (`meta.groups.get(group,
capacity)`) and the grand total is within capacity; moreover whenever some
group is over budget, the reported error is a group overflow naming an
over-budget group together with its exact overflow amount (the group check
runs before the global capacity check). -/
theorem super_resize_auto_spec (ns : String → Option Nat)
    (meta : SuperMetadata) :
    (validate_resize_auto ns meta = .ok ()
      ↔ ((∀ g ∈ meta.partitions.map groupOf,
            groupSum ns meta.partitions g ≤ dictGet meta.groups g meta.capacity)
          ∧ totalRequested ns meta.partitions ≤ meta.capacity))
  ∧ ((∃ g ∈ meta.partitions.map groupOf,
        groupSum ns meta.partitions g > dictGet meta.groups g meta.capacity) →
      ∃ g, g ∈ meta.partitions.map groupOf
        ∧ groupSum ns meta.partitions g > dictGet meta.groups g meta.capacity
        ∧ validate_resize_auto ns meta
            = .error (.groupOverflow g
                (groupSum ns meta.partitions g
                  - dictGet meta.groups g meta.capacity))) := by
  constructor
  · constructor
    · intro hok
      cases hs : autoGroupScan meta (groupTotals ns meta.partitions) with
      | error e =>
        exfalso
        simp [validate_resize_auto, hs] at hok
      | ok u =>
        cases u
        have hall := (autoGroupScan_ok_iff meta _).mp hs
        refine ⟨(groupBudget_bridge ns meta).mp hall, ?_⟩
        by_cases hc : ((groupTotals ns meta.partitions).map Prod.snd).sum
            > meta.capacity
        · exfalso
          simp [validate_resize_auto, hs, hc] at hok
        · rw [← sum_groupTotals ns meta.partitions]
          omega
    · rintro ⟨hall, hcap⟩
      have hs : autoGroupScan meta (groupTotals ns meta.partitions) = .ok () :=
        (autoGroupScan_ok_iff meta _).mpr ((groupBudget_bridge ns meta).mpr hall)
      have hc : ¬ ((groupTotals ns meta.partitions).map Prod.snd).sum
          > meta.capacity := by
        rw [sum_groupTotals]
        omega
      simp [validate_resize_auto, hs, hc]
  · intro hex
    obtain ⟨g, hg, hover⟩ := hex
    have hex' : ∃ gt ∈ groupTotals ns meta.partitions,
        gt.2 > dictGet meta.groups gt.1 meta.capacity := by
      obtain ⟨t, ht⟩ := keys_mem_exists _ g
        ((mem_keys_groupTotals ns meta.partitions g).mpr hg)
      have he := entry_eq_lk _ (nodup_keys_groupTotals ns meta.partitions) g t ht
      rw [lk_groupTotals] at he
      exact ⟨(g, t), ht, by simpa [← he] using hover⟩
    obtain ⟨g2, t2, hm2, ho2, he2⟩ := autoGroupScan_first_overflow meta _ hex'
    have hg2 : g2 ∈ meta.partitions.map groupOf :=
      (mem_keys_groupTotals ns meta.partitions g2).mp
        (List.mem_map.mpr ⟨(g2, t2), hm2, rfl⟩)
    have he := entry_eq_lk _ (nodup_keys_groupTotals ns meta.partitions) g2 t2 hm2
    rw [lk_groupTotals] at he
    refine ⟨g2, hg2, by omega, ?_⟩
    rw [← he]
    simp [validate_resize_auto, he2]



/-- C3 witness: the spec's example. Groups `{"default": 1000000}` with
capacity 1000000: `system=600000, vendor=300000` validates OK; raising
vendor to 500000 fails naming `default` with overflow 100000. -/
theorem super_resize_auto_spec_witness :
    validate_resize_auto (fun _ => none)
      ⟨1000000, [("default", 1000000)],
        [⟨"system", some "default", 600000⟩, ⟨"vendor", some "default", 300000⟩]⟩
      = .ok ()
  ∧ validate_resize_auto (fun n => if n == "vendor" then some 500000 else none)
      ⟨1000000, [("default", 1000000)],
        [⟨"system", some "default", 600000⟩, ⟨"vendor", some "default", 300000⟩]⟩
      = .error (.groupOverflow "default" 100000) := by
  constructor
  · exact (super_resize_auto_spec (fun _ => none) _).1.mpr ⟨by decide, by decide⟩
  · rfl

/-- C8: the fstab patcher rewrites the forced-encryption example line
exactly as specified: the avb token is removed, `forceencrypt=sw` becomes
`encryptable=footer`, redundant and trailing commas are collapsed, and the
applied patterns are `avb` and `forceencrypt`. -/
theorem fstab_patch_example :
    patch_fstab_line "/dev/block/x /data ext4 ro,forceencrypt=sw,avb=vbmeta_a"
      = ("/dev/block/x /data ext4 ro,encryptable=footer",
         ["avb", "forceencrypt"]) := by
  decide

theorem runsAuxCtx_nonword_cons (nx : Option Char) (c : Char) (cs : List Char)
    (h : isWordChar c = false) :
    runsAuxCtx nx [] (c :: cs) = runsAuxCtx nx [] cs := by
  simp [runsAuxCtx, h]

theorem runsAnn_nonword_cons (c : Char) (cs : List Char)
    (h : isWordChar c = false) :
    runsAnn (c :: cs) = runsAnn cs := by
  simp [runsAnn, runsAuxCtx, h]

theorem ctx_append (c : Char) (hc : isWordChar c = false) (bs : List Char)
    (nx : Option Char) :
    ∀ (a cur : List Char),
    runsAuxCtx nx cur (a ++ c :: bs)
      = runsAuxCtx (some c) cur a ++ runsAuxCtx nx [] bs := by
  intro a
  induction a with
  | nil =>
    intro cur
    by_cases h : cur.isEmpty
    · simp [runsAuxCtx, hc, h]
    · simp [runsAuxCtx, hc, h]
  | cons x a' ih =>
    intro cur
    by_cases hx : isWordChar x
    · simp [runsAuxCtx, hx, ih]
    · by_cases h : cur.isEmpty
      · simp [runsAuxCtx, hx, h, ih]
      · simp [runsAuxCtx, hx, h, ih]

theorem ctx_allword (nx : Option Char) :
    ∀ (a cur : List Char), (∀ c ∈ a, isWordChar c = true) →
    runsAuxCtx nx cur a
      = if (cur.reverse ++ a).isEmpty then [] else [(cur.reverse ++ a, nx)] := by
  intro a
  induction a with
  | nil =>
    intro cur _
    cases cur with
    | nil => simp [runsAuxCtx]
    | cons y ys => simp [runsAuxCtx]
  | cons x a' ih =>
    intro cur hall
    have hx : isWordChar x = true := hall x (by simp)
    have ih' := ih (x :: cur) (fun c hc => hall c (by simp [hc]))
    simp only [runsAuxCtx, hx, if_true, ih']
    simp

theorem ctx_ann_rel (nx nx' : Option Char) (hnx : nx ≠ some '=') :
    ∀ (a cur : List Char), ∀ rn ∈ runsAuxCtx nx cur a,
    ∃ rn2 ∈ runsAuxCtx nx' cur a,
      rn.1 = rn2.1 ∧ (rn.2 = some '=' → rn2.2 = some '=') := by
  intro a
  induction a with
  | nil =>
    intro cur rn hrn
    by_cases h : cur.isEmpty
    · simp [runsAuxCtx, h] at hrn
    · simp [runsAuxCtx, h] at hrn
      refine ⟨(cur.reverse, nx'), by simp [runsAuxCtx, h], by simp [hrn], ?_⟩
      intro he
      rw [hrn] at he
      simp at he
      exact absurd he hnx
  | cons x a' ih =>
    intro cur rn hrn
    by_cases hx : isWordChar x
    · rw [runsAuxCtx, if_pos hx] at hrn
      obtain ⟨rn2, h1, h2⟩ := ih (x :: cur) rn hrn
      exact ⟨rn2, by rw [runsAuxCtx, if_pos hx]; exact h1, h2⟩
    · by_cases h : cur.isEmpty
      · rw [runsAuxCtx, if_neg (by simp [hx]), if_pos h] at hrn
        obtain ⟨rn2, h1, h2⟩ := ih [] rn hrn
        exact ⟨rn2, by rw [runsAuxCtx, if_neg (by simp [hx]), if_pos h]; exact h1, h2⟩
      · rw [runsAuxCtx, if_neg (by simp [hx]), if_neg h] at hrn
        rcases List.mem_cons.mp hrn with h1 | h1
        · exact ⟨(cur.reverse, some x),
            by rw [runsAuxCtx, if_neg (by simp [hx]), if_neg h]; simp,
            by simp [h1], by simp [h1]⟩
        · obtain ⟨rn2, h2, h3⟩ := ih [] rn h1
          exact ⟨rn2,
            by rw [runsAuxCtx, if_neg (by simp [hx]), if_neg h]; simp [h2],
            h3⟩



theorem headNonword_dropWhile_word (cs : List Char) :
    headNonword (cs.dropWhile isWordChar) = true := by
  have h := List.head?_dropWhile_not isWordChar cs
  cases he : (cs.dropWhile isWordChar) with
  | nil => simp [headNonword]
  | cons r rs =>
    rw [he] at h
    simp at h
    simp [headNonword, h]

theorem first_run_split (c : Char) (hc : isWordChar c = true) (cs : List Char) :
    runsAnn (c :: cs)
      = (c :: cs.takeWhile isWordChar, (cs.dropWhile isWordChar).head?)
          :: runsAnn (cs.dropWhile isWordChar) := by
  have hdec : c :: cs = (c :: cs.takeWhile isWordChar) ++ cs.dropWhile isWordChar := by
    simp [List.takeWhile_append_dropWhile]
  have hallw : ∀ x ∈ c :: cs.takeWhile isWordChar, isWordChar x = true := by
    intro x hx
    rcases List.mem_cons.mp hx with h | h
    · rw [h]; exact hc
    · exact List.mem_takeWhile_imp h
  cases he : cs.dropWhile isWordChar with
  | nil =>
    rw [runsAnn, hdec, he, List.append_nil, ctx_allword none _ [] hallw]
    simp [runsAnn, runsAuxCtx]
  | cons r rs =>
    have hr : isWordChar r = false := by
      have h := List.head?_dropWhile_not isWordChar cs
      rw [he] at h
      simpa using h
    rw [runsAnn, hdec, he, ctx_append r hr rs none _ [],
      ctx_allword (some r) _ [] hallw]
    simp [runsAnn, runsAuxCtx_nonword_cons none r rs hr]

theorem runs_dropWhile_nonword (q : Char → Bool)
    (hq : ∀ c, q c = true → isWordChar c = false) (nx : Option Char) :
    ∀ s : List Char, runsAuxCtx nx [] (s.dropWhile q) = runsAuxCtx nx [] s := by
  intro s
  induction s with
  | nil => rfl
  | cons c cs ih =>
    by_cases h : q c
    · rw [List.dropWhile_cons_of_pos h, ih, runsAuxCtx]
      simp [hq c h]
    · rw [List.dropWhile_cons_of_neg (by simp [h])]



theorem headIsWord_eq_not_headNonword (t : List Char) :
    headIsWord t = !headNonword t := by
  cases t with
  | nil => rfl
  | cons c cs => simp [headIsWord, headNonword]

theorem allword_prefix_takeWhile (l : List Char)
    (hl : ∀ x ∈ l, isWordChar x = true) :
    ∀ s : List Char, l <+: s ↔ l <+: s.takeWhile isWordChar := by
  induction l with
  | nil => intro s; simp
  | cons a l' ih =>
    intro s
    constructor
    · intro h
      obtain ⟨t, ht⟩ := h
      cases s with
      | nil => simp at ht
      | cons b s' =>
        have hab : a = b := by
          have := congrArg List.head? ht
          simpa using this
        have hts : l' ++ t = s' := by
          have := congrArg List.tail ht
          simpa using this
        have ha : isWordChar b = true := hab ▸ hl a (by simp)
        rw [List.takeWhile_cons_of_pos ha]
        have hl' : l' <+: s'.takeWhile isWordChar :=
          (ih (fun x hx => hl x (by simp [hx])) s').mp ⟨t, hts⟩
        obtain ⟨t', ht'⟩ := hl'
        exact ⟨t', by rw [hab, List.cons_append, ht']⟩
    · intro h
      exact h.trans (List.takeWhile_prefix isWordChar)



theorem eq_word_false : isWordChar '=' = false := by decide

theorem local_match (p : TokPat) (hp : wfTok p = true) (c : Char)
    (hc : isWordChar c = true) (cs : List Char) :
    ((tryTokLen p (c :: cs)).isSome = true
      ↔ badRun p (c :: cs.takeWhile isWordChar,
          (cs.dropWhile isWordChar).head?) = true) := by
  obtain ⟨lit, tail, repl⟩ := p
  have hWdef : (c :: cs).takeWhile isWordChar = c :: cs.takeWhile isWordChar :=
    List.takeWhile_cons_of_pos hc
  have hRdef : (c :: cs).dropWhile isWordChar = cs.dropWhile isWordChar :=
    List.dropWhile_cons_of_pos hc
  have hWs : (c :: cs.takeWhile isWordChar) ++ cs.dropWhile isWordChar = c :: cs := by
    rw [← hWdef, ← hRdef]
    exact List.takeWhile_append_dropWhile isWordChar (c :: cs)
  have hWall : ∀ x ∈ c :: cs.takeWhile isWordChar, isWordChar x = true := by
    intro x hx
    rcases List.mem_cons.mp hx with h | h
    · rw [h]; exact hc
    · exact List.mem_takeWhile_imp h
  have hRhead : headNonword (cs.dropWhile isWordChar) = true :=
    headNonword_dropWhile_word cs
  cases tail with
  | wordEnd =>
    simp only [wfTok, Bool.and_eq_true] at hp
    obtain ⟨hne, hall⟩ := hp
    have hallw : ∀ x ∈ lit, isWordChar x = true := by
      intro x hx
      exact List.all_eq_true.mp hall x hx
    constructor
    · intro h
      simp only [tryTokLen] at h
      by_cases hpre : lit.isPrefixOf (c :: cs)
      · rw [if_pos hpre] at h
        have hnw : headIsWord ((c :: cs).drop lit.length) = false := by
          by_cases hw : headIsWord ((c :: cs).drop lit.length)
          · rw [if_pos hw] at h
            simp at h
          · simpa using hw
        have hpre' : lit <+: (c :: cs) := List.isPrefixOf_iff_prefix.mp hpre
        have hpw : lit <+: (c :: cs.takeWhile isWordChar) := by
          have := (allword_prefix_takeWhile lit hallw (c :: cs)).mp hpre'
          rwa [hWdef] at this
        obtain ⟨t, ht⟩ := hpw
        cases t with
        | nil =>
          simp only [List.append_nil] at ht
          simp [badRun, ht]
        | cons w t' =>
          exfalso
          have hsw : c :: cs = lit ++ (w :: t') ++ cs.dropWhile isWordChar := by
            rw [ht, hWs]
          have hdrop : (c :: cs).drop lit.length
              = (w :: t') ++ cs.dropWhile isWordChar := by
            rw [hsw, List.append_assoc, List.drop_left]
          have hwword : isWordChar w = true := by
            apply hWall
            rw [← ht]
            exact List.mem_append.mpr (Or.inr (by simp))
          rw [hdrop] at hnw
          simp [headIsWord, hwword] at hnw
      · rw [if_neg hpre] at h
        simp at h
    · intro h
      simp only [badRun] at h
      have hW : c :: cs.takeWhile isWordChar = lit := by
        exact beq_iff_eq.mp h
      have hpre : lit.isPrefixOf (c :: cs) := by
        rw [List.isPrefixOf_iff_prefix, ← hW]
        exact ⟨cs.dropWhile isWordChar, hWs⟩
      have hdrop : (c :: cs).drop lit.length = cs.dropWhile isWordChar := by
        rw [← hW, ← hWs, List.drop_left]
      simp only [tryTokLen, if_pos hpre, hdrop]
      rw [headIsWord_eq_not_headNonword, hRhead]
      simp
  | star =>
    simp only [wfTok, Bool.and_eq_true] at hp
    obtain ⟨⟨hne, hall⟩, hlast⟩ := hp
    have hlitne : lit ≠ [] := by
      intro he
      rw [he] at hne
      simp at hne
    have hlast' : lit.getLast hlitne = '=' := by
      have h1 := List.getLast?_eq_getLast lit hlitne
      rw [h1] at hlast
      exact Option.some.inj (beq_iff_eq.mp hlast)
    have hconcat : lit.dropLast ++ ['='] = lit := by
      rw [← hlast']
      exact List.dropLast_concat_getLast hlitne
    have hdlall : ∀ x ∈ lit.dropLast, isWordChar x = true := by
      intro x hx
      exact List.all_eq_true.mp hall x hx
    have hiff : (tryTokLen ⟨lit, .star, repl⟩ (c :: cs)).isSome = true
        ↔ lit.isPrefixOf (c :: cs) = true := by
      simp only [tryTokLen]
      by_cases hpre : lit.isPrefixOf (c :: cs)
      · simp [hpre]
      · simp [hpre]
    rw [hiff]
    constructor
    · intro hpre
      obtain ⟨t, ht⟩ := List.isPrefixOf_iff_prefix.mp hpre
      have hs : lit.dropLast ++ '=' :: t = c :: cs := by
        rw [← ht, ← hconcat]
        simp
      have hW : (c :: cs).takeWhile isWordChar = lit.dropLast := by
        rw [← hs, List.takeWhile_append_of_pos hdlall,
          List.takeWhile_cons_of_neg (by simp [eq_word_false])]
        simp
      have hR : (c :: cs).dropWhile isWordChar = '=' :: t := by
        have h1 : lit.dropLast ++ (c :: cs).dropWhile isWordChar = c :: cs := by
          rw [← hW]
          exact List.takeWhile_append_dropWhile isWordChar (c :: cs)
        exact List.append_cancel_left (h1.trans hs.symm)
      rw [hWdef] at hW
      rw [hRdef] at hR
      simp [badRun, hW, hR]
    · intro hbad
      simp only [badRun, Bool.and_eq_true] at hbad
      obtain ⟨hW, hR⟩ := hbad
      have hW' : c :: cs.takeWhile isWordChar = lit.dropLast := beq_iff_eq.mp hW
      have hR' : (cs.dropWhile isWordChar).head? = some '=' := by
        simpa using hR
      obtain ⟨R', hRdec⟩ : ∃ R', cs.dropWhile isWordChar = '=' :: R' := by
        cases hcase : cs.dropWhile isWordChar with
        | nil => rw [hcase] at hR'; simp at hR'
        | cons r rs =>
          rw [hcase] at hR'
          simp at hR'
          exact ⟨rs, by rw [hR']⟩
      rw [List.isPrefixOf_iff_prefix]
      refine ⟨R', ?_⟩
      rw [← hconcat, ← hWs, hW', hRdec]
      simp
  | optStar =>
    simp only [wfTok, Bool.and_eq_true] at hp
    obtain ⟨hne, hall⟩ := hp
    have hallw : ∀ x ∈ lit, isWordChar x = true := by
      intro x hx
      exact List.all_eq_true.mp hall x hx
    have hiff : (tryTokLen ⟨lit, .optStar, repl⟩ (c :: cs)).isSome = true
        ↔ lit.isPrefixOf (c :: cs) = true := by
      simp only [tryTokLen]
      by_cases hpre : lit.isPrefixOf (c :: cs)
      · rw [if_pos hpre]
        cases hdc : (c :: cs).drop lit.length with
        | nil => simp [hpre]
        | cons d ds =>
          by_cases hd : d == '=' || d == ','
          · simp [hd, hpre]
          · simp [hd, hpre]
      · simp [hpre]
    rw [hiff]
    simp only [badRun]
    constructor
    · intro hpre
      have hpre' := List.isPrefixOf_iff_prefix.mp hpre
      have := (allword_prefix_takeWhile lit hallw (c :: cs)).mp hpre'
      rw [hWdef] at this
      exact List.isPrefixOf_iff_prefix.mpr this
    · intro hpW
      have hw := List.isPrefixOf_iff_prefix.mp hpW
      have : lit <+: (c :: cs) := by
        apply (allword_prefix_takeWhile lit hallw (c :: cs)).mpr
        rwa [hWdef]
      exact List.isPrefixOf_iff_prefix.mpr this



theorem wf_head_word (p : TokPat) (hp : wfTok p = true) :
    ∃ l0 lt, p.lit = l0 :: lt ∧ isWordChar l0 = true := by
  obtain ⟨lit, tail, repl⟩ := p
  cases tail with
  | wordEnd =>
    simp only [wfTok, Bool.and_eq_true] at hp
    obtain ⟨hne, hall⟩ := hp
    cases lit with
    | nil => simp at hne
    | cons l0 lt =>
      exact ⟨l0, lt, rfl, List.all_eq_true.mp hall l0 (by simp)⟩
  | optStar =>
    simp only [wfTok, Bool.and_eq_true] at hp
    obtain ⟨hne, hall⟩ := hp
    cases lit with
    | nil => simp at hne
    | cons l0 lt =>
      exact ⟨l0, lt, rfl, List.all_eq_true.mp hall l0 (by simp)⟩
  | star =>
    simp only [wfTok, Bool.and_eq_true] at hp
    obtain ⟨⟨hne, hall⟩, hlast⟩ := hp
    have hlitne : lit ≠ [] := by
      intro he
      rw [he] at hne
      simp at hne
    have hconcat : lit.dropLast ++ [lit.getLast hlitne] = lit :=
      List.dropLast_concat_getLast hlitne
    cases hdl : lit.dropLast with
    | nil =>
      rw [hdl] at hne
      simp at hne
    | cons d0 dt =>
      refine ⟨d0, dt ++ [lit.getLast hlitne], ?_, ?_⟩
      · change lit = d0 :: (dt ++ [lit.getLast hlitne])
        have h2 : lit = (d0 :: dt) ++ [lit.getLast hlitne] := by
          rw [← hdl]
          exact hconcat.symm
        simpa using h2
      · apply List.all_eq_true.mp hall d0
        rw [hdl]
        simp
  
theorem tryTokLen_nonword (p : TokPat) (hp : wfTok p = true) (c : Char)
    (hc : isWordChar c = false) (cs : List Char) :
    tryTokLen p (c :: cs) = none := by
  obtain ⟨l0, lt, hlit, hl0⟩ := wf_head_word p hp
  have hpre : p.lit.isPrefixOf (c :: cs) = false := by
    rw [hlit]
    simp only [List.isPrefixOf]
    have : (l0 == c) = false := by
      rw [beq_eq_false_iff_ne]
      intro he
      rw [he] at hl0
      rw [hl0] at hc
      simp at hc
    simp [this]
  simp only [tryTokLen, hpre]
  simp

theorem hasTok_iff_badRun (p : TokPat) (hp : wfTok p = true) :
    ∀ (s : List Char) (pw : Bool),
    (hasTok p pw s = true
      ↔ ∃ rn ∈ runsAnn (if pw then s.dropWhile isWordChar else s),
          badRun p rn = true) := by
  intro s
  induction s with
  | nil =>
    intro pw
    cases pw <;> simp [hasTok, runsAnn, runsAuxCtx]
  | cons c cs ih =>
    intro pw
    by_cases hcw : isWordChar c
    · cases pw with
      | true =>
        have h1 := ih true
        simp only [if_true] at h1
        simp only [if_true, List.dropWhile_cons_of_pos hcw]
        simpa [hasTok, hcw] using h1
      | false =>
        have hl := local_match p hp c hcw cs
        have h1 := ih true
        simp only [if_true] at h1
        simp only [if_neg (Bool.false_ne_true), first_run_split c hcw cs]
        simp only [hasTok, Bool.not_false, Bool.true_and, hcw, Bool.or_eq_true]
        constructor
        · rintro (h | h)
          · exact ⟨_, List.mem_cons_self _ _, hl.mp h⟩
          · obtain ⟨rn, hm, hb⟩ := h1.mp h
            exact ⟨rn, List.mem_cons_of_mem _ hm, hb⟩
        · rintro ⟨rn, hm, hb⟩
          rcases List.mem_cons.mp hm with he | he
          · exact Or.inl (hl.mpr (he ▸ hb))
          · exact Or.inr (h1.mpr ⟨rn, he, hb⟩)
    · have hcw' : isWordChar c = false := by simpa using hcw
      have hnone := tryTokLen_nonword p hp c hcw' cs
      have h1 := ih false
      simp only [if_neg (Bool.false_ne_true)] at h1
      have hstep : ∀ pw0 : Bool, hasTok p pw0 (c :: cs) = hasTok p false cs := by
        intro pw0
        simp [hasTok, hnone, hcw']
      cases pw with
      | true =>
        rw [if_pos rfl, List.dropWhile_cons_of_neg hcw,
          runsAnn_nonword_cons c cs hcw', hstep]
        exact h1
      | false =>
        simp only [if_neg (Bool.false_ne_true), runsAnn_nonword_cons c cs hcw',
          hstep]
        exact h1

theorem countNonStop_le (t : List Char) : countNonStop t ≤ t.length := by
  induction t with
  | nil => simp [countNonStop]
  | cons c cs ih =>
    by_cases h : (c == ',' || isSpaceChar c)
    · simp [countNonStop, h]
    · simp [countNonStop, h]
      omega

theorem comma_not_word : isWordChar ',' = false := by decide

theorem space_not_word (c : Char) (h : isSpaceChar c = true) :
    isWordChar c = false := by
  simp only [isSpaceChar, Bool.or_eq_true, beq_iff_eq] at h
  rcases h with ((((h | h) | h) | h) | h) | h <;> subst h <;> decide

theorem countNonStop_stop (t : List Char) :
    headNonword (t.drop (countNonStop t)) = true := by
  induction t with
  | nil => simp [countNonStop, headNonword]
  | cons c cs ih =>
    by_cases h : (c == ',' || isSpaceChar c)
    · rw [countNonStop, if_pos h, List.drop_zero]
      rcases Bool.or_eq_true .. |>.mp h with h1 | h1
      · simp [headNonword, beq_iff_eq.mp h1, comma_not_word]
      · simp [headNonword, space_not_word c h1]
    · rw [countNonStop, if_neg h, List.drop_succ_cons]
      exact ih

theorem headNonword_head? (t : List Char) :
    headNonword t = match t.head? with
      | none => true
      | some c => !isWordChar c := by
  cases t <;> rfl

theorem tryTokLen_len (p : TokPat) (hp : wfTok p = true) (s : List Char)
    (L : Nat) (h : tryTokLen p s = some L) : 1 ≤ L ∧ L ≤ s.length := by
  obtain ⟨l0, lt, hlit, _⟩ := wf_head_word p hp
  have hlen : 1 ≤ p.lit.length := by rw [hlit]; simp
  by_cases hpre : p.lit.isPrefixOf s
  · have hple : p.lit.length ≤ s.length :=
      (List.isPrefixOf_iff_prefix.mp hpre).length_le
    rw [tryTokLen, if_pos hpre] at h
    cases htail : p.tail with
    | wordEnd =>
      rw [htail] at h
      by_cases hw : headIsWord (s.drop p.lit.length)
      · simp [hw] at h
      · simp [hw] at h
        omega
    | star =>
      rw [htail] at h
      simp at h
      have := countNonStop_le (s.drop p.lit.length)
      rw [List.length_drop] at this
      omega
    | optStar =>
      rw [htail] at h
      cases hdc : s.drop p.lit.length with
      | nil =>
        rw [hdc] at h
        simp at h
        omega
      | cons d ds =>
        have hdlen : p.lit.length + ds.length + 1 = s.length := by
          have h1 : (s.drop p.lit.length).length = s.length - p.lit.length :=
            List.length_drop ..
          rw [hdc] at h1
          simp at h1
          omega
        rw [hdc] at h
        by_cases hd : (d == '=' || d == ',')
        · simp only [hd, if_true] at h
          simp at h
          have := countNonStop_le ds
          omega
        · simp only [hd, if_false, Bool.false_eq_true] at h
          simp at h
          have := countNonStop_le (d :: ds)
          simp at this
          omega
  · rw [tryTokLen, if_neg hpre] at h
    simp at h

theorem tryTokLen_stop (p : TokPat) (hp : wfTok p = true) (s : List Char)
    (L : Nat) (h : tryTokLen p s = some L) :
    headNonword (s.drop L) = true := by
  by_cases hpre : p.lit.isPrefixOf s
  · rw [tryTokLen, if_pos hpre] at h
    cases htail : p.tail with
    | wordEnd =>
      rw [htail] at h
      by_cases hw : headIsWord (s.drop p.lit.length)
      · simp [hw] at h
      · simp [hw] at h
        rw [← h]
        rw [headIsWord_eq_not_headNonword] at hw
        simpa using hw
    | star =>
      rw [htail] at h
      simp at h
      rw [← h, ← List.drop_drop]
      exact countNonStop_stop (s.drop p.lit.length)
    | optStar =>
      rw [htail] at h
      cases hdc : s.drop p.lit.length with
      | nil =>
        rw [hdc] at h
        simp at h
        rw [← h, hdc]
        simp [headNonword]
      | cons d ds =>
        rw [hdc] at h
        by_cases hd : (d == '=' || d == ',')
        · simp only [hd, if_true] at h
          simp at h
          have h1 : s.drop (p.lit.length + 1) = ds := by
            rw [← List.drop_drop 1 p.lit.length s, hdc]
            simp
          have hstep : s.drop L = ds.drop (countNonStop ds) := by
            rw [← h, ← List.drop_drop (countNonStop ds) (p.lit.length + 1) s, h1]
          rw [hstep]
          exact countNonStop_stop ds
        · simp only [hd, if_false, Bool.false_eq_true] at h
          simp at h
          have hstep : s.drop L = (d :: ds).drop (countNonStop (d :: ds)) := by
            rw [← h, ← List.drop_drop (countNonStop (d :: ds)) p.lit.length s, hdc]
          rw [hstep]
          exact countNonStop_stop (d :: ds)
  · rw [tryTokLen, if_neg hpre] at h
    simp at h



theorem gsub_skip_eq (q : TokPat) (hq : wfTok q = true) :
    ∀ (n : Nat) (s : List Char) (pw : Bool),
    headNonword (s.drop n) = true →
    gsubTok q n pw s = gsubTok q 0 false (s.drop n) := by
  intro n
  induction n with
  | zero =>
    intro s pw hh
    rw [List.drop_zero] at hh
    rw [List.drop_zero]
    cases s with
    | nil => rfl
    | cons c cs =>
      have hcw : isWordChar c = false := by
        simpa [headNonword] using hh
      have hnone := tryTokLen_nonword q hq c hcw cs
      cases pw <;> simp [gsubTok, hnone]
  | succ n ih =>
    intro s pw hh
    cases s with
    | nil => simp [gsubTok]
    | cons c cs =>
      rw [List.drop_succ_cons] at hh
      rw [List.drop_succ_cons]
      show gsubTok q (n + 1) pw (c :: cs) = _
      rw [show gsubTok q (n + 1) pw (c :: cs)
          = gsubTok q n (isWordChar c) cs from by simp [gsubTok]]
      exact ih cs (isWordChar c) hh

theorem gsub_head (q : TokPat) (hq : wfTok q = true) (s : List Char)
    (hh : headNonword s = true) :
    (gsubTok q 0 false s).head? = s.head? := by
  cases s with
  | nil => rfl
  | cons c cs =>
    have hcw : isWordChar c = false := by simpa [headNonword] using hh
    simp [gsubTok, tryTokLen_nonword q hq c hcw cs]

theorem gsub_headNonword (q : TokPat) (hq : wfTok q = true) (s : List Char)
    (hh : headNonword s = true) :
    headNonword (gsubTok q 0 false s) = true := by
  rw [headNonword_head?, gsub_head q hq s hh, ← headNonword_head?]
  exact hh

theorem gsub_runskip (q : TokPat) :
    ∀ s : List Char,
    gsubTok q 0 true s
      = s.takeWhile isWordChar ++ gsubTok q 0 true (s.dropWhile isWordChar) := by
  intro s
  induction s with
  | nil => rfl
  | cons c cs ih =>
    by_cases hcw : isWordChar c
    · rw [List.takeWhile_cons_of_pos hcw, List.dropWhile_cons_of_pos hcw]
      rw [show gsubTok q 0 true (c :: cs) = c :: gsubTok q 0 (isWordChar c) cs
        from by simp [gsubTok]]
      rw [hcw, ih]
      simp
    · rw [List.takeWhile_cons_of_neg hcw, List.dropWhile_cons_of_neg hcw]
      simp

theorem runsAnn_mem_append (a b : List Char) (hb : headNonword b = true) :
    ∀ rn ∈ runsAnn b, rn ∈ runsAnn (a ++ b) := by
  intro rn hrn
  cases b with
  | nil => simp [runsAnn, runsAuxCtx] at hrn
  | cons r rs =>
    have hr : isWordChar r = false := by simpa [headNonword] using hb
    rw [runsAnn, ctx_append r hr rs none a []]
    rw [runsAnn, runsAuxCtx_nonword_cons none r rs hr] at hrn
    exact List.mem_append_right _ hrn

theorem repl_decomp :
    "encryptable=footer".data
      = "encryptable".data ++ '=' :: "footer".data := by decide

theorem enc_allword : ∀ x ∈ "encryptable".data, isWordChar x = true := by decide

theorem footer_allword : ∀ x ∈ "footer".data, isWordChar x = true := by decide

theorem ctx_word_then (w : List Char) (hw : ∀ x ∈ w, isWordChar x = true)
    (hwne : w ≠ []) (c : Char) (hc : isWordChar c = false) (t : List Char) :
    runsAuxCtx none [] (w ++ c :: t)
      = (w, some c) :: runsAuxCtx none [] t := by
  rw [ctx_append c hc t none w [], ctx_allword (some c) w [] hw]
  simp [hwne, runsAuxCtx_nonword_cons none c t hc]

theorem repl_runs (b : List Char) (hb : headNonword b = true) :
    runsAnn ("encryptable=footer".data ++ b)
      = ("encryptable".data, some '=') :: ("footer".data, b.head?)
          :: runsAnn b := by
  rw [show "encryptable=footer".data ++ b
      = "encryptable".data ++ '=' :: ("footer".data ++ b) from by
    rw [repl_decomp]
    simp]
  rw [runsAnn, ctx_word_then "encryptable".data enc_allword (by decide) '='
    eq_word_false ("footer".data ++ b)]
  cases b with
  | nil =>
    rw [List.append_nil, ctx_allword none ("footer".data) [] footer_allword]
    simp [runsAnn, runsAuxCtx]
  | cons r rs =>
    have hr : isWordChar r = false := by simpa [headNonword] using hb
    rw [ctx_word_then "footer".data footer_allword (by decide) r hr rs]
    rw [runsAnn, runsAuxCtx_nonword_cons none r rs hr]
    simp



theorem gsubTok_runs (q : TokPat) (hq : wfTok q = true)
    (hrep : q.repl = [] ∨ q.repl = "encryptable=footer".data) :
    ∀ (n : Nat) (s : List Char), s.length ≤ n →
    ∀ rn ∈ runsAnn (gsubTok q 0 false s),
      (rn ∈ runsAnn s ∧ badRun q rn = false)
      ∨ rn.1 = "encryptable".data ∨ rn.1 = "footer".data := by
  intro n
  induction n with
  | zero =>
    intro s hlen rn hrn
    have hs : s = [] := List.length_eq_zero.mp (Nat.le_zero.mp hlen)
    subst hs
    simp [gsubTok, runsAnn, runsAuxCtx] at hrn
  | succ n ih =>
    intro s hlen rn hrn
    cases s with
    | nil => simp [gsubTok, runsAnn, runsAuxCtx] at hrn
    | cons c cs =>
      by_cases hcw : isWordChar c
      · cases htry : tryTokLen q (c :: cs) with
        | none =>
          have hallW : ∀ x ∈ c :: cs.takeWhile isWordChar, isWordChar x = true := by
            intro x hx
            rcases List.mem_cons.mp hx with h | h
            · rw [h]; exact hcw
            · exact List.mem_takeWhile_imp h
          have hhR0 : headNonword (cs.dropWhile isWordChar) = true :=
            headNonword_dropWhile_word cs
          have hout : gsubTok q 0 false (c :: cs)
              = (c :: cs.takeWhile isWordChar)
                ++ gsubTok q 0 false (cs.dropWhile isWordChar) := by
            rw [show gsubTok q 0 false (c :: cs)
                = c :: gsubTok q 0 (isWordChar c) cs from by simp [gsubTok, htry]]
            rw [hcw, gsub_runskip q cs]
            rw [show gsubTok q 0 true (cs.dropWhile isWordChar)
                = gsubTok q 0 false (cs.dropWhile isWordChar) from by
              have h1 := gsub_skip_eq q hq 0 (cs.dropWhile isWordChar) true
                (by rw [List.drop_zero]; exact hhR0)
              rwa [List.drop_zero] at h1]
            simp
          have hhead : (gsubTok q 0 false (cs.dropWhile isWordChar)).head?
              = (cs.dropWhile isWordChar).head? := gsub_head q hq _ hhR0
          have hhout0 : headNonword (gsubTok q 0 false (cs.dropWhile isWordChar)) = true :=
            gsub_headNonword q hq _ hhR0
          have hrout : runsAnn (gsubTok q 0 false (c :: cs))
              = (c :: cs.takeWhile isWordChar, (cs.dropWhile isWordChar).head?)
                  :: runsAnn (gsubTok q 0 false (cs.dropWhile isWordChar)) := by
            rw [hout]
            cases hoc : gsubTok q 0 false (cs.dropWhile isWordChar) with
            | nil =>
              have h2 : (cs.dropWhile isWordChar).head? = none := by
                rw [← hhead, hoc]
                rfl
              rw [List.append_nil, runsAnn, ctx_allword none _ [] hallW, h2]
              simp [runsAnn, runsAuxCtx]
            | cons o os =>
              have ho : isWordChar o = false := by
                rw [hoc] at hhout0
                simpa [headNonword] using hhout0
              have h2 : (cs.dropWhile isWordChar).head? = some o := by
                rw [← hhead, hoc]
                rfl
              rw [runsAnn, ctx_word_then _ hallW (by simp) o ho os, h2]
              rw [runsAnn, runsAuxCtx_nonword_cons none o os ho]
          have hrin : runsAnn (c :: cs)
              = (c :: cs.takeWhile isWordChar, (cs.dropWhile isWordChar).head?)
                  :: runsAnn (cs.dropWhile isWordChar) :=
            first_run_split c hcw cs
          rw [hrout] at hrn
          rcases List.mem_cons.mp hrn with he | he
          · left
            refine ⟨by rw [hrin, he]; exact List.mem_cons_self _ _, ?_⟩
            rw [he]
            by_cases hbad : badRun q (c :: cs.takeWhile isWordChar,
                (cs.dropWhile isWordChar).head?) = true
            · exfalso
              have h3 := (local_match q hq c hcw cs).mpr hbad
              rw [htry] at h3
              simp at h3
            · simpa using hbad
          · have hR0len : (cs.dropWhile isWordChar).length ≤ n := by
              have h1 : (cs.dropWhile isWordChar).length ≤ cs.length :=
                (List.dropWhile_sublist isWordChar).length_le
              simp at hlen
              omega
            rcases ih (cs.dropWhile isWordChar) hR0len rn he with ⟨hm, hb⟩ | hr
            · left
              exact ⟨by rw [hrin]; exact List.mem_cons_of_mem _ hm, hb⟩
            · exact Or.inr hr
        | some L =>
          have hL := tryTokLen_len q hq (c :: cs) L htry
          have hstop := tryTokLen_stop q hq (c :: cs) L htry
          have hdropcs : cs.drop (L - 1) = (c :: cs).drop L := by
            cases L with
            | zero => exact absurd hL.1 (by omega)
            | succ L2 => simp
          have hout : gsubTok q 0 false (c :: cs)
              = q.repl ++ gsubTok q 0 false ((c :: cs).drop L) := by
            rw [show gsubTok q 0 false (c :: cs)
                = q.repl ++ gsubTok q (L - 1) (isWordChar c) cs from by
              simp [gsubTok, htry]]
            rw [gsub_skip_eq q hq (L - 1) cs (isWordChar c)
              (by rw [hdropcs]; exact hstop), hdropcs]
          have hlift : ∀ x ∈ runsAnn ((c :: cs).drop L), x ∈ runsAnn (c :: cs) := by
            intro x hx
            have hdec : (c :: cs) = (c :: cs).take L ++ (c :: cs).drop L :=
              (List.take_append_drop L _).symm
            rw [hdec]
            exact runsAnn_mem_append _ _ hstop x hx
          have hrestlen : ((c :: cs).drop L).length ≤ n := by
            obtain ⟨hL1, hL2⟩ := hL
            rw [List.length_drop]
            simp at hlen hL2 ⊢
            omega
          rcases hrep with he | he
          · rw [hout, he, List.nil_append] at hrn
            rcases ih _ hrestlen rn hrn with ⟨hm, hb⟩ | hr
            · exact Or.inl ⟨hlift rn hm, hb⟩
            · exact Or.inr hr
          · rw [hout, he] at hrn
            have hh0 : headNonword (gsubTok q 0 false ((c :: cs).drop L)) = true :=
              gsub_headNonword q hq _ hstop
            rw [repl_runs _ hh0] at hrn
            rcases List.mem_cons.mp hrn with he1 | he1
            · right; left; rw [he1]
            · rcases List.mem_cons.mp he1 with he2 | he2
              · right; right; rw [he2]
              · rcases ih _ hrestlen rn he2 with ⟨hm, hb⟩ | hr
                · exact Or.inl ⟨hlift rn hm, hb⟩
                · exact Or.inr hr
      · have hcw' : isWordChar c = false := by simpa using hcw
        have hout : gsubTok q 0 false (c :: cs) = c :: gsubTok q 0 false cs := by
          simp [gsubTok, tryTokLen_nonword q hq c hcw' cs, hcw']
        rw [hout, runsAnn_nonword_cons c _ hcw'] at hrn
        have hcslen : cs.length ≤ n := by simp at hlen; omega
        rcases ih cs hcslen rn hrn with ⟨hm, hb⟩ | hr
        · exact Or.inl ⟨by rw [runsAnn_nonword_cons c cs hcw']; exact hm, hb⟩
        · exact Or.inr hr

theorem swallow_commaRuns : ∀ s : List Char,
    subCommaRuns true s = subCommaRuns false (s.dropWhile (fun c => c == ',')) := by
  intro s
  induction s with
  | nil => rfl
  | cons c cs ih =>
    by_cases hc : c = ','
    · subst hc
      rw [List.dropWhile_cons_of_pos (by simp)]
      rw [show subCommaRuns true (',' :: cs) = subCommaRuns true cs from by
        simp [subCommaRuns]]
      exact ih
    · rw [List.dropWhile_cons_of_neg (by simp [hc])]
      simp [subCommaRuns, hc]

theorem comma_pred_nonword : ∀ c : Char, (c == ',') = true → isWordChar c = false := by
  intro c h
  rw [beq_iff_eq.mp h]
  exact comma_not_word

theorem runsAuxCtx_step_nonword (nx : Option Char) (c : Char)
    (hc : isWordChar c = false) (cur X : List Char) :
    runsAuxCtx nx cur (c :: X)
      = (if cur.isEmpty then [] else [(cur.reverse, some c)])
          ++ runsAuxCtx nx [] X := by
  by_cases he : cur.isEmpty
  · simp [runsAuxCtx, hc, he]
  · simp [runsAuxCtx, hc, he]

theorem subCommaRuns_runs : ∀ (n : Nat) (s : List Char), s.length ≤ n →
    ∀ (cur : List Char) (nx : Option Char),
    runsAuxCtx nx cur (subCommaRuns false s) = runsAuxCtx nx cur s := by
  intro n
  induction n with
  | zero =>
    intro s hlen cur nx
    have hs : s = [] := List.length_eq_zero.mp (Nat.le_zero.mp hlen)
    subst hs
    rfl
  | succ n ih =>
    intro s hlen cur nx
    cases s with
    | nil => rfl
    | cons c cs =>
      by_cases hc : c = ','
      · subst hc
        cases cs with
        | nil => rfl
        | cons c2 cs2 =>
          by_cases h2 : c2 = ','
          · subst h2
            rw [show subCommaRuns false (',' :: ',' :: cs2)
                = ',' :: subCommaRuns true (',' :: cs2) from by simp [subCommaRuns]]
            rw [swallow_commaRuns (',' :: cs2)]
            rw [List.dropWhile_cons_of_pos (by simp)]
            rw [runsAuxCtx_step_nonword nx ',' comma_not_word cur _]
            rw [runsAuxCtx_step_nonword nx ',' comma_not_word cur (',' :: cs2)]
            congr 1
            have hdw : (cs2.dropWhile (fun c => c == ',')).length ≤ n := by
              have h1 : (cs2.dropWhile (fun c => c == ',')).length ≤ cs2.length :=
                (List.dropWhile_sublist _).length_le
              simp at hlen
              omega
            rw [ih _ hdw [] nx]
            rw [runs_dropWhile_nonword _ comma_pred_nonword nx cs2]
            rw [runsAuxCtx_step_nonword nx ',' comma_not_word [] cs2]
            simp
          · rw [show subCommaRuns false (',' :: c2 :: cs2)
                = ',' :: subCommaRuns false (c2 :: cs2) from by simp [subCommaRuns, h2]]
            rw [runsAuxCtx_step_nonword nx ',' comma_not_word cur _]
            rw [runsAuxCtx_step_nonword nx ',' comma_not_word cur (c2 :: cs2)]
            congr 1
            apply ih
            simp at hlen
            simp
            omega
      · rw [show subCommaRuns false (c :: cs) = c :: subCommaRuns false cs from by
          simp [subCommaRuns, hc]]
        have hcslen : cs.length ≤ n := by simp at hlen; omega
        by_cases hw : isWordChar c
        · rw [show runsAuxCtx nx cur (c :: subCommaRuns false cs)
              = runsAuxCtx nx (c :: cur) (subCommaRuns false cs) from by
            simp [runsAuxCtx, hw]]
          rw [show runsAuxCtx nx cur (c :: cs)
              = runsAuxCtx nx (c :: cur) cs from by simp [runsAuxCtx, hw]]
          exact ih cs hcslen (c :: cur) nx
        · have hw' : isWordChar c = false := by simpa using hw
          rw [runsAuxCtx_step_nonword nx c hw' cur _,
            runsAuxCtx_step_nonword nx c hw' cur cs]
          congr 1
          exact ih cs hcslen [] nx



theorem space_not_eqc (c : Char) (h : isSpaceChar c = true) : c ≠ '=' := by
  intro he
  subst he
  simp [isSpaceChar] at h

theorem subCommaSpace_runs : ∀ (n : Nat) (s : List Char), s.length ≤ n →
    ∀ (cur : List Char) (nx : Option Char), nx ≠ some '=' →
    ∀ rn ∈ runsAuxCtx nx cur (subCommaSpace s),
    ∃ rn2 ∈ runsAuxCtx nx cur s,
      rn.1 = rn2.1 ∧ (rn.2 = some '=' → rn2.2 = some '=') := by
  intro n
  induction n with
  | zero =>
    intro s hlen cur nx hnx rn hrn
    have hs : s = [] := List.length_eq_zero.mp (Nat.le_zero.mp hlen)
    subst hs
    exact ⟨rn, hrn, rfl, fun h => h⟩
  | succ n ih =>
    intro s hlen cur nx hnx rn hrn
    cases s with
    | nil => exact ⟨rn, hrn, rfl, fun h => h⟩
    | cons c cs =>
      by_cases hc : c = ','
      · subst hc
        cases cs with
        | nil =>
          rw [show subCommaSpace [','] = [] from rfl] at hrn
          rw [runsAuxCtx_step_nonword nx ',' comma_not_word cur []]
          by_cases he : cur.isEmpty
          · simp [runsAuxCtx, he] at hrn
          · simp [runsAuxCtx, he] at hrn
            refine ⟨(cur.reverse, some ','), by simp [he, runsAuxCtx], ?_, ?_⟩
            · simp [hrn]
            · intro h
              rw [hrn] at h
              simp at h
              exact absurd h hnx
        | cons c2 cs2 =>
          by_cases h2 : isSpaceChar c2
          · rw [show subCommaSpace (',' :: c2 :: cs2) = c2 :: subCommaSpace cs2
              from by simp [subCommaSpace, h2]] at hrn
            have hc2w : isWordChar c2 = false := space_not_word c2 h2
            rw [runsAuxCtx_step_nonword nx c2 hc2w cur _] at hrn
            rw [runsAuxCtx_step_nonword nx ',' comma_not_word cur (c2 :: cs2),
              runsAuxCtx_step_nonword nx c2 hc2w [] cs2]
            simp only [List.isEmpty_nil, if_true, List.nil_append]
            rcases List.mem_append.mp hrn with hm | hm
            · by_cases he : cur.isEmpty
              · simp [he] at hm
              · simp [he] at hm
                refine ⟨(cur.reverse, some ','), List.mem_append_left _ (by simp [he]), ?_, ?_⟩
                · simp [hm]
                · intro h
                  rw [hm] at h
                  simp at h
                  exact absurd (h ▸ h2) (by decide)
            · have hcs2len : cs2.length ≤ n := by simp at hlen; omega
              obtain ⟨rn2, hrn2, hrel⟩ := ih cs2 hcs2len [] nx hnx rn hm
              exact ⟨rn2, List.mem_append_right _ hrn2, hrel⟩
          · have h2' : isSpaceChar c2 = false := by simpa using h2
            rw [show subCommaSpace (',' :: c2 :: cs2) = ',' :: subCommaSpace (c2 :: cs2)
              from by simp [subCommaSpace, h2']] at hrn
            rw [runsAuxCtx_step_nonword nx ',' comma_not_word cur _] at hrn
            rw [runsAuxCtx_step_nonword nx ',' comma_not_word cur (c2 :: cs2)]
            rcases List.mem_append.mp hrn with hm | hm
            · exact ⟨rn, List.mem_append_left _ hm, rfl, fun h => h⟩
            · have hlen2 : (c2 :: cs2).length ≤ n := by simp at hlen ⊢; omega
              obtain ⟨rn2, hrn2, hrel⟩ := ih (c2 :: cs2) hlen2 [] nx hnx rn hm
              exact ⟨rn2, List.mem_append_right _ hrn2, hrel⟩
      · rw [show subCommaSpace (c :: cs) = c :: subCommaSpace cs from by
          cases cs with
          | nil => simp [subCommaSpace, hc]
          | cons d ds => simp [subCommaSpace, hc]] at hrn
        have hcslen : cs.length ≤ n := by simp at hlen; omega
        by_cases hw : isWordChar c
        · rw [show runsAuxCtx nx cur (c :: subCommaSpace cs)
              = runsAuxCtx nx (c :: cur) (subCommaSpace cs) from by
            simp [runsAuxCtx, hw]] at hrn
          rw [show runsAuxCtx nx cur (c :: cs)
              = runsAuxCtx nx (c :: cur) cs from by simp [runsAuxCtx, hw]]
          exact ih cs hcslen (c :: cur) nx hnx rn hrn
        · have hw' : isWordChar c = false := by simpa using hw
          rw [runsAuxCtx_step_nonword nx c hw' cur _] at hrn
          rw [runsAuxCtx_step_nonword nx c hw' cur cs]
          rcases List.mem_append.mp hrn with hm | hm
          · exact ⟨rn, List.mem_append_left _ hm, rfl, fun h => h⟩
          · obtain ⟨rn2, hrn2, hrel⟩ := ih cs hcslen [] nx hnx rn hm
            exact ⟨rn2, List.mem_append_right _ hrn2, hrel⟩



theorem space_word_false : isWordChar ' ' = false := by decide

theorem swallow_spaceRuns : ∀ s : List Char,
    subSpaceRuns true s = subSpaceRuns false (s.dropWhile isSpaceChar) := by
  intro s
  induction s with
  | nil => rfl
  | cons c cs ih =>
    by_cases hc : isSpaceChar c
    · rw [List.dropWhile_cons_of_pos hc]
      rw [show subSpaceRuns true (c :: cs) = subSpaceRuns true cs from by
        simp [subSpaceRuns, hc]]
      exact ih
    · rw [List.dropWhile_cons_of_neg hc]
      have hc' : isSpaceChar c = false := by simpa using hc
      simp [subSpaceRuns, hc']

theorem subSpaceRuns_runs : ∀ (n : Nat) (s : List Char), s.length ≤ n →
    ∀ (cur : List Char) (nx : Option Char), nx ≠ some '=' →
    ∀ rn ∈ runsAuxCtx nx cur (subSpaceRuns false s),
    ∃ rn2 ∈ runsAuxCtx nx cur s,
      rn.1 = rn2.1 ∧ (rn.2 = some '=' → rn2.2 = some '=') := by
  intro n
  induction n with
  | zero =>
    intro s hlen cur nx hnx rn hrn
    have hs : s = [] := List.length_eq_zero.mp (Nat.le_zero.mp hlen)
    subst hs
    exact ⟨rn, hrn, rfl, fun h => h⟩
  | succ n ih =>
    intro s hlen cur nx hnx rn hrn
    cases s with
    | nil => exact ⟨rn, hrn, rfl, fun h => h⟩
    | cons c cs =>
      by_cases hc : isSpaceChar c
      · rw [show subSpaceRuns false (c :: cs) = ' ' :: subSpaceRuns true cs from by
          simp [subSpaceRuns, hc]] at hrn
        rw [swallow_spaceRuns cs] at hrn
        rw [runsAuxCtx_step_nonword nx ' ' space_word_false cur _] at hrn
        rw [runsAuxCtx_step_nonword nx c (space_not_word c hc) cur cs]
        rcases List.mem_append.mp hrn with hm | hm
        · by_cases he : cur.isEmpty
          · simp [he] at hm
          · simp [he] at hm
            refine ⟨(cur.reverse, some c), List.mem_append_left _ (by simp [he]), ?_, ?_⟩
            · simp [hm]
            · intro h
              rw [hm] at h
              simp at h
        · have hdlen : (cs.dropWhile isSpaceChar).length ≤ n := by
            have h1 : (cs.dropWhile isSpaceChar).length ≤ cs.length :=
              (List.dropWhile_sublist _).length_le
            simp at hlen
            omega
          obtain ⟨rn2, hrn2, hrel⟩ := ih _ hdlen [] nx hnx rn hm
          rw [runs_dropWhile_nonword isSpaceChar space_not_word nx cs] at hrn2
          exact ⟨rn2, List.mem_append_right _ hrn2, hrel⟩
      · have hc' : isSpaceChar c = false := by simpa using hc
        rw [show subSpaceRuns false (c :: cs) = c :: subSpaceRuns false cs from by
          simp [subSpaceRuns, hc']] at hrn
        have hcslen : cs.length ≤ n := by simp at hlen; omega
        by_cases hw : isWordChar c
        · rw [show runsAuxCtx nx cur (c :: subSpaceRuns false cs)
              = runsAuxCtx nx (c :: cur) (subSpaceRuns false cs) from by
            simp [runsAuxCtx, hw]] at hrn
          rw [show runsAuxCtx nx cur (c :: cs)
              = runsAuxCtx nx (c :: cur) cs from by simp [runsAuxCtx, hw]]
          exact ih cs hcslen (c :: cur) nx hnx rn hrn
        · have hw' : isWordChar c = false := by simpa using hw
          rw [runsAuxCtx_step_nonword nx c hw' cur _] at hrn
          rw [runsAuxCtx_step_nonword nx c hw' cur cs]
          rcases List.mem_append.mp hrn with hm | hm
          · exact ⟨rn, List.mem_append_left _ hm, rfl, fun h => h⟩
          · obtain ⟨rn2, hrn2, hrel⟩ := ih cs hcslen [] nx hnx rn hm
            exact ⟨rn2, List.mem_append_right _ hrn2, hrel⟩



theorem allnonword_runs (nx : Option Char) :
    ∀ v : List Char, (∀ c ∈ v, isWordChar c = false) →
    runsAuxCtx nx [] v = [] := by
  intro v
  induction v with
  | nil => intro _; rfl
  | cons c cs ih =>
    intro hall
    rw [runsAuxCtx_nonword_cons nx c cs (hall c (by simp))]
    exact ih (fun x hx => hall x (by simp [hx]))

theorem stripChars_runs (s : List Char) :
    ∀ rn ∈ runsAnn (stripChars s),
    ∃ rn2 ∈ runsAnn s, rn.1 = rn2.1 ∧ (rn.2 = some '=' → rn2.2 = some '=') := by
  intro rn hrn
  have hu : runsAuxCtx none [] (s.dropWhile isSpaceChar) = runsAuxCtx none [] s :=
    runs_dropWhile_nonword isSpaceChar space_not_word none s
  have hdec : s.dropWhile isSpaceChar
      = ((s.dropWhile isSpaceChar).reverse.dropWhile isSpaceChar).reverse
        ++ ((s.dropWhile isSpaceChar).reverse.takeWhile isSpaceChar).reverse := by
    conv_lhs => rw [← List.reverse_reverse (s.dropWhile isSpaceChar)]
    rw [← List.reverse_append]
    congr 1
    exact (List.takeWhile_append_dropWhile isSpaceChar _).symm
  have hwsfx : ∀ c ∈ ((s.dropWhile isSpaceChar).reverse.takeWhile isSpaceChar).reverse,
      isSpaceChar c = true := by
    intro c hc
    rw [List.mem_reverse] at hc
    exact List.mem_takeWhile_imp hc
  cases hfx : ((s.dropWhile isSpaceChar).reverse.takeWhile isSpaceChar).reverse with
  | nil =>
    rw [hfx, List.append_nil] at hdec
    refine ⟨rn, ?_, rfl, fun h => h⟩
    rw [runsAnn, ← hu, hdec]
    exact hrn
  | cons w ws2 =>
    have hw : isSpaceChar w = true := by
      apply hwsfx
      rw [hfx]
      simp
    have hwnw : isWordChar w = false := space_not_word w hw
    have hruns : runsAuxCtx none [] (s.dropWhile isSpaceChar)
        = runsAuxCtx (some w) []
            ((s.dropWhile isSpaceChar).reverse.dropWhile isSpaceChar).reverse := by
      conv_lhs => rw [hdec, hfx]
      rw [ctx_append w hwnw ws2 none _ []]
      rw [allnonword_runs none ws2 (fun c hc => space_not_word c (by
        apply hwsfx
        rw [hfx]
        simp [hc]))]
      simp
    obtain ⟨rn2, hrn2, hrel⟩ := ctx_ann_rel none (some w) (by simp) _ [] rn hrn
    refine ⟨rn2, ?_, hrel⟩
    rw [runsAnn, ← hu, hruns]
    exact hrn2

theorem badRun_content (p : TokPat) (rn : List Char × Option Char)
    (h : badRun p rn = true) : contentHit p rn.1 = true := by
  obtain ⟨lit, tail, repl⟩ := p
  cases tail with
  | wordEnd => simpa [badRun, contentHit] using h
  | star =>
    simp [badRun] at h
    simp [contentHit, h.1]
  | optStar => simpa [badRun, contentHit] using h

theorem badRun_rel (p : TokPat) (rn rn2 : List Char × Option Char)
    (h1 : rn.1 = rn2.1) (h2 : rn.2 = some '=' → rn2.2 = some '=')
    (hb : badRun p rn = true) : badRun p rn2 = true := by
  obtain ⟨lit, tail, repl⟩ := p
  cases tail with
  | wordEnd =>
    simp [badRun] at hb ⊢
    rw [← h1]
    exact hb
  | star =>
    simp [badRun] at hb ⊢
    obtain ⟨hc, ha⟩ := hb
    exact ⟨h1 ▸ hc, h2 ha⟩
  | optStar =>
    simp [badRun] at hb ⊢
    rw [← h1]
    exact hb

theorem replOk_cases (q : TokPat) (h : replOk q = true) :
    q.repl = [] ∨ q.repl = "encryptable=footer".data := by
  simp [replOk] at h
  rcases h with h | h
  · exact Or.inl h
  · exact Or.inr h

theorem replSafe_not_hit (p : TokPat) (hs : replSafe p = true)
    (r : List Char) (hr : r = "encryptable".data ∨ r = "footer".data) :
    contentHit p r = false := by
  simp [replSafe] at hs
  rcases hr with h | h
  · rw [h]
    exact hs.1
  · rw [h]
    exact hs.2

theorem cleanup_preserves_noTok (p : TokPat) (hp : wfTok p = true)
    (t : List Char) (h : hasTok p false t = false) :
    hasTok p false (cleanupLine t) = false := by
  by_cases hc : hasTok p false (cleanupLine t) = true
  · exfalso
    have hchar := (hasTok_iff_badRun p hp (cleanupLine t) false).mp hc
    rw [if_neg (Bool.false_ne_true)] at hchar
    obtain ⟨rn, hrn, hbad⟩ := hchar
    unfold cleanupLine at hrn
    obtain ⟨rn3, hrn3, hr3⟩ := stripChars_runs _ rn hrn
    obtain ⟨rn2, hrn2, hr2⟩ := subSpaceRuns_runs
      ((subCommaSpace (subCommaRuns false t)).length) _ (le_refl _) [] none
      (by simp) rn3 hrn3
    obtain ⟨rn1, hrn1, hr1⟩ := subCommaSpace_runs
      ((subCommaRuns false t).length) _ (le_refl _) [] none (by simp) rn2 hrn2
    rw [show runsAuxCtx none [] (subCommaRuns false t) = runsAuxCtx none [] t from
      subCommaRuns_runs t.length t (le_refl _) [] none] at hrn1
    have hbad1 : badRun p rn1 = true := by
      apply badRun_rel p rn2 rn1 hr1.1 hr1.2
      apply badRun_rel p rn3 rn2 hr2.1 hr2.2
      apply badRun_rel p rn rn3 hr3.1 hr3.2
      exact hbad
    have : hasTok p false t = true := by
      apply (hasTok_iff_badRun p hp t false).mpr
      rw [if_neg (Bool.false_ne_true)]
      exact ⟨rn1, hrn1, hbad1⟩
    rw [this] at h
    simp at h
  · simpa using hc

theorem gsub_preserves_noTok (p q : TokPat) (hp : wfTok p = true)
    (hq : wfTok q = true) (hqr : replOk q = true) (hps : replSafe p = true)
    (t : List Char) (h : hasTok p false t = false) :
    hasTok p false (gsubTok q 0 false t) = false := by
  by_cases hc : hasTok p false (gsubTok q 0 false t) = true
  · exfalso
    have hchar := (hasTok_iff_badRun p hp _ false).mp hc
    rw [if_neg (Bool.false_ne_true)] at hchar
    obtain ⟨rn, hrn, hbad⟩ := hchar
    rcases gsubTok_runs q hq (replOk_cases q hqr) t.length t (le_refl _) rn hrn with
      ⟨hm, _⟩ | hrep
    · have : hasTok p false t = true := by
        apply (hasTok_iff_badRun p hp t false).mpr
        rw [if_neg (Bool.false_ne_true)]
        exact ⟨rn, hm, hbad⟩
      rw [this] at h
      simp at h
    · have hhit := badRun_content p rn hbad
      rw [replSafe_not_hit p hps rn.1 hrep] at hhit
      simp at hhit
  · simpa using hc

theorem gsub_kills_ownTok (q : TokPat) (hq : wfTok q = true)
    (hqr : replOk q = true) (hqs : replSafe q = true) (t : List Char) :
    hasTok q false (gsubTok q 0 false t) = false := by
  by_cases hc : hasTok q false (gsubTok q 0 false t) = true
  · exfalso
    have hchar := (hasTok_iff_badRun q hq _ false).mp hc
    rw [if_neg (Bool.false_ne_true)] at hchar
    obtain ⟨rn, hrn, hbad⟩ := hchar
    rcases gsubTok_runs q hq (replOk_cases q hqr) t.length t (le_refl _) rn hrn with
      ⟨_, hb⟩ | hrep
    · rw [hbad] at hb
      simp at hb
    · have hhit := badRun_content q rn hbad
      rw [replSafe_not_hit q hqs rn.1 hrep] at hhit
      simp at hhit
  · simpa using hc



theorem foldl_preserves_noTok :
    ∀ (ps : List (String × TokPat)) (acc : List Char × List String)
      (p : TokPat), wfTok p = true → replSafe p = true →
    (∀ np ∈ ps, wfTok np.2 = true ∧ replOk np.2 = true) →
    hasTok p false acc.1 = false →
    hasTok p false (ps.foldl applyPattern acc).1 = false := by
  intro ps
  induction ps with
  | nil => intro acc p _ _ _ h; exact h
  | cons nq rest ih =>
    intro acc p hp hps hall h
    rw [List.foldl_cons]
    apply ih (applyPattern acc nq) p hp hps
      (fun np hnp => hall np (by simp [hnp]))
    unfold applyPattern
    by_cases hm : hasTok nq.2 false acc.1 = true
    · rw [if_pos hm]
      exact gsub_preserves_noTok p nq.2 hp (hall nq (by simp)).1
        (hall nq (by simp)).2 hps acc.1 h
    · rw [if_neg hm]
      exact h

theorem foldl_kills :
    ∀ (ps : List (String × TokPat)) (acc : List Char × List String),
    (∀ np ∈ ps, GoodPat np.2 = true) →
    ∀ np ∈ ps, hasTok np.2 false (ps.foldl applyPattern acc).1 = false := by
  intro ps
  induction ps with
  | nil => intro acc _ np hnp; simp at hnp
  | cons nq rest ih =>
    intro acc hall np hnp
    have hgood : GoodPat nq.2 = true := hall nq (by simp)
    have hq : wfTok nq.2 = true := by
      simp [GoodPat] at hgood
      exact hgood.1.1
    have hqr : replOk nq.2 = true := by
      simp [GoodPat] at hgood
      exact hgood.1.2
    have hqs : replSafe nq.2 = true := by
      simp [GoodPat] at hgood
      exact hgood.2
    rw [List.foldl_cons]
    rcases List.mem_cons.mp hnp with he | he
    · subst he
      apply foldl_preserves_noTok rest (applyPattern acc np) np.2 hq hqs
      · intro np2 hnp2
        have hg2 := hall np2 (by simp [hnp2])
        simp [GoodPat] at hg2
        exact hg2.1
      · unfold applyPattern
        by_cases hm : hasTok np.2 false acc.1 = true
        · rw [if_pos hm]
          exact gsub_kills_ownTok np.2 hq hqr hqs acc.1
        · rw [if_neg hm]
          simpa using hm
    · exact ih (applyPattern acc nq) (fun np2 hnp2 => hall np2 (by simp [hnp2])) np he

theorem foldl_noop :
    ∀ (ps : List (String × TokPat)) (t : List Char) (ch : List String),
    (∀ np ∈ ps, hasTok np.2 false t = false) →
    ps.foldl applyPattern (t, ch) = (t, ch) := by
  intro ps
  induction ps with
  | nil => intro t ch _; rfl
  | cons nq rest ih =>
    intro t ch hall
    rw [List.foldl_cons]
    have h1 : applyPattern (t, ch) nq = (t, ch) := by
      unfold applyPattern
      rw [if_neg (by simp [hall nq (by simp)])]
    rw [h1]
    exact ih t ch (fun np hnp => hall np (by simp [hnp]))

theorem comma_not_space : isSpaceChar ',' = false := by decide

theorem noCommaPair_cons (c : Char) (X : List Char)
    (h : c = ',' → X.head? ≠ some ',') :
    noCommaPair (c :: X) = noCommaPair X := by
  by_cases hc : c = ','
  · subst hc
    cases X with
    | nil => rfl
    | cons x xs =>
      have hx : x ≠ ',' := by
        intro he
        exact h rfl (by simp [he])
      simp [noCommaPair, hx]
  · cases X with
    | nil => simp [noCommaPair]
    | cons x xs => simp [noCommaPair, hc]

theorem noCommaPair_tail (c : Char) (cs : List Char)
    (h : noCommaPair (c :: cs) = true) : noCommaPair cs = true := by
  by_cases hc : c = ','
  · subst hc
    cases cs with
    | nil => rfl
    | cons x xs =>
      by_cases hx : x = ','
      · subst hx
        simp [noCommaPair] at h
      · simpa [noCommaPair, hx] using h
  · cases cs with
    | nil => rfl
    | cons x xs => simpa [noCommaPair, hc] using h

theorem noCommaPair_dropWhile (q : Char → Bool) :
    ∀ s : List Char, noCommaPair s = true →
    noCommaPair (s.dropWhile q) = true := by
  intro s
  induction s with
  | nil => intro h; exact h
  | cons c cs ih =>
    intro h
    by_cases hq : q c
    · rw [List.dropWhile_cons_of_pos hq]
      exact ih (noCommaPair_tail c cs h)
    · rw [List.dropWhile_cons_of_neg hq]
      exact h

theorem noCommaWs_tail (c : Char) (cs : List Char)
    (h : noCommaWs (c :: cs) = true) : noCommaWs cs = true := by
  by_cases hc : c = ','
  · subst hc
    cases cs with
    | nil => simp [noCommaWs] at h
    | cons x xs =>
      have h2 : noCommaWs (',' :: x :: xs) = (!isSpaceChar x && noCommaWs (x :: xs)) := by
        simp [noCommaWs]
      rw [h2] at h
      exact (Bool.and_eq_true .. |>.mp h).2
  · cases cs with
    | nil => rfl
    | cons x xs => simpa [noCommaWs, hc] using h

theorem wsCollapsed_tail (c : Char) (cs : List Char)
    (h : wsCollapsed (c :: cs) = true) : wsCollapsed cs = true := by
  by_cases hc : isSpaceChar c
  · cases cs with
    | nil => rfl
    | cons c2 cs2 =>
      simp only [wsCollapsed, hc, if_true, Bool.and_eq_true] at h
      exact h.2
  · simpa [wsCollapsed, hc] using h

theorem subCommaRuns_head : ∀ z : List Char,
    (subCommaRuns false z).head? = z.head? := by
  intro z
  cases z with
  | nil => rfl
  | cons c cs =>
    by_cases hc : c = ','
    · subst hc
      cases cs with
      | nil => rfl
      | cons c2 cs2 =>
        by_cases h2 : c2 = ','
        · subst h2
          simp [subCommaRuns]
        · simp [subCommaRuns, h2]
    · simp [subCommaRuns, hc]

theorem noCommaPair_subCommaRuns : ∀ (n : Nat) (s : List Char), s.length ≤ n →
    noCommaPair (subCommaRuns false s) = true := by
  intro n
  induction n with
  | zero =>
    intro s hlen
    have hs : s = [] := List.length_eq_zero.mp (Nat.le_zero.mp hlen)
    subst hs
    rfl
  | succ n ih =>
    intro s hlen
    cases s with
    | nil => rfl
    | cons c cs =>
      by_cases hc : c = ','
      · subst hc
        cases cs with
        | nil => rfl
        | cons c2 cs2 =>
          by_cases h2 : c2 = ','
          · subst h2
            rw [show subCommaRuns false (',' :: ',' :: cs2)
                = ',' :: subCommaRuns true (',' :: cs2) from by simp [subCommaRuns]]
            rw [swallow_commaRuns (',' :: cs2),
              List.dropWhile_cons_of_pos (by simp)]
            have hd : (subCommaRuns false (cs2.dropWhile (fun c => c == ','))).head?
                ≠ some ',' := by
              rw [subCommaRuns_head]
              cases he : cs2.dropWhile (fun c => c == ',') with
              | nil => simp
              | cons d ds =>
                have hprop := List.head?_dropWhile_not (fun c => c == ',') cs2
                rw [he] at hprop
                simp at hprop ⊢
                exact hprop
            rw [noCommaPair_cons ',' _ (fun _ => hd)]
            apply ih
            have h1 : (cs2.dropWhile (fun c => c == ',')).length ≤ cs2.length :=
              (List.dropWhile_sublist _).length_le
            simp at hlen
            omega
          · rw [show subCommaRuns false (',' :: c2 :: cs2)
                = ',' :: subCommaRuns false (c2 :: cs2) from by simp [subCommaRuns, h2]]
            have hd : (subCommaRuns false (c2 :: cs2)).head? ≠ some ',' := by
              rw [subCommaRuns_head]
              simp [h2]
            rw [noCommaPair_cons ',' _ (fun _ => hd)]
            apply ih
            simp at hlen
            simp
            omega
      · rw [show subCommaRuns false (c :: cs) = c :: subCommaRuns false cs from by
          simp [subCommaRuns, hc]]
        rw [noCommaPair_cons c _ (fun he => absurd he hc)]
        apply ih
        simp at hlen
        omega

theorem noCommaPair_prefix : ∀ (u v : List Char),
    noCommaPair (u ++ v) = true → noCommaPair u = true := by
  intro u
  induction u with
  | nil => intro v _; rfl
  | cons x u' ih =>
    intro v h
    cases u' with
    | nil => simp [noCommaPair]
    | cons y u'' =>
      have hcase : ¬(x = ',' ∧ y = ',') := by
        rintro ⟨hx, hy⟩
        subst hx; subst hy
        simp [noCommaPair] at h
      have hx : x = ',' → (y :: (u'' ++ v)).head? ≠ some ',' := by
        intro hx he
        simp at he
        exact hcase ⟨hx, he⟩
      have hx2 : x = ',' → (y :: u'').head? ≠ some ',' := by
        intro hx he
        simp at he
        exact hcase ⟨hx, he⟩
      rw [noCommaPair_cons x _ hx2]
      rw [show (x :: y :: u'') ++ v = x :: ((y :: u'') ++ v) from rfl,
        noCommaPair_cons x _ (by simpa using hx)] at h
      exact ih v h

theorem noCommaPair_stripChars (s : List Char)
    (h : noCommaPair s = true) : noCommaPair (stripChars s) = true := by
  have hu : noCommaPair (s.dropWhile isSpaceChar) = true :=
    noCommaPair_dropWhile isSpaceChar s h
  obtain ⟨t, ht⟩ :=
    List.dropWhile_suffix (l := (s.dropWhile isSpaceChar).reverse) (p := isSpaceChar)
  have h2 : (s.dropWhile isSpaceChar) =
      ((s.dropWhile isSpaceChar).reverse.dropWhile isSpaceChar).reverse
        ++ t.reverse := by
    have h3 := congrArg List.reverse ht
    simpa [List.reverse_append] using h3.symm
  simp only [stripChars]
  exact noCommaPair_prefix _ t.reverse (by rw [← h2]; exact hu)

theorem noCommaPair_subCommaSpace : ∀ (n : Nat) (s : List Char), s.length ≤ n →
    noCommaPair s = true → noCommaPair (subCommaSpace s) = true := by
  intro n
  induction n with
  | zero =>
    intro s hlen _
    have hs : s = [] := List.length_eq_zero.mp (Nat.le_zero.mp hlen)
    subst hs
    rfl
  | succ n ih =>
    intro s hlen h
    cases s with
    | nil => rfl
    | cons c cs =>
      by_cases hc : c = ','
      · subst hc
        cases cs with
        | nil => rfl
        | cons c2 cs2 =>
          by_cases hw : isSpaceChar c2
          · rw [show subCommaSpace (',' :: c2 :: cs2) = c2 :: subCommaSpace cs2 from by
              simp [subCommaSpace, hw]]
            have hc2 : c2 ≠ ',' := by
              intro he
              rw [he] at hw
              simp [comma_not_space] at hw
            rw [noCommaPair_cons c2 _ (fun he => absurd he hc2)]
            apply ih
            · simp at hlen; omega
            · exact noCommaPair_tail c2 cs2 (noCommaPair_tail ',' _ h)
          · have hc2 : c2 ≠ ',' := by
              intro he
              subst he
              simp [noCommaPair] at h
            rw [show subCommaSpace (',' :: c2 :: cs2)
                = ',' :: subCommaSpace (c2 :: cs2) from by
              simp [subCommaSpace, hw]]
            rw [show subCommaSpace (c2 :: cs2) = c2 :: subCommaSpace cs2 from by
              cases cs2 with
              | nil => simp [subCommaSpace, hc2]
              | cons d ds => simp [subCommaSpace, hc2]]
            rw [noCommaPair_cons ',' _ (fun _ => by simp [hc2])]
            rw [noCommaPair_cons c2 _ (fun he => absurd he hc2)]
            apply ih
            · simp at hlen; omega
            · exact noCommaPair_tail c2 cs2 (noCommaPair_tail ',' _ h)
      · rw [show subCommaSpace (c :: cs) = c :: subCommaSpace cs from by
          cases cs with
          | nil => simp [subCommaSpace, hc]
          | cons d ds => simp [subCommaSpace, hc]]
        rw [noCommaPair_cons c _ (fun he => absurd he hc)]
        apply ih
        · simp at hlen; omega
        · exact noCommaPair_tail c cs h

theorem subSpaceRuns_head_ne_comma (cs : List Char)
    (h : cs.head? ≠ some ',') :
    (subSpaceRuns false cs).head? ≠ some ',' := by
  cases cs with
  | nil => simp [subSpaceRuns]
  | cons d ds =>
    by_cases hw : isSpaceChar d
    · rw [show subSpaceRuns false (d :: ds) = ' ' :: subSpaceRuns true ds from by
        simp [subSpaceRuns, hw]]
      simp
    · rw [show subSpaceRuns false (d :: ds) = d :: subSpaceRuns false ds from by
        simp [subSpaceRuns, hw]]
      simpa using h

theorem noCommaPair_subSpaceRuns : ∀ (n : Nat) (s : List Char), s.length ≤ n →
    noCommaPair s = true → noCommaPair (subSpaceRuns false s) = true := by
  intro n
  induction n with
  | zero =>
    intro s hlen _
    have hs : s = [] := List.length_eq_zero.mp (Nat.le_zero.mp hlen)
    subst hs
    rfl
  | succ n ih =>
    intro s hlen h
    cases s with
    | nil => rfl
    | cons c cs =>
      by_cases hw : isSpaceChar c
      · rw [show subSpaceRuns false (c :: cs) = ' ' :: subSpaceRuns true cs from by
          simp [subSpaceRuns, hw]]
        rw [swallow_spaceRuns]
        rw [noCommaPair_cons ' ' _ (fun he => by simp at he)]
        apply ih
        · have : (cs.dropWhile isSpaceChar).length ≤ cs.length :=
            (List.dropWhile_sublist _).length_le
          simp at hlen
          omega
        · exact noCommaPair_dropWhile isSpaceChar cs (noCommaPair_tail c cs h)
      · rw [show subSpaceRuns false (c :: cs) = c :: subSpaceRuns false cs from by
          simp [subSpaceRuns, hw]]
        have hhd : c = ',' → (subSpaceRuns false cs).head? ≠ some ',' := by
          intro hc
          subst hc
          apply subSpaceRuns_head_ne_comma
          cases cs with
          | nil => simp
          | cons d ds =>
            intro he
            simp at he
            subst he
            simp [noCommaPair] at h
        rw [noCommaPair_cons c _ hhd]
        apply ih
        · simp at hlen; omega
        · exact noCommaPair_tail c cs h

theorem noCommaWs_cons_of_ne (c : Char) (X : List Char) (hc : c ≠ ',') :
    noCommaWs (c :: X) = noCommaWs X := by
  cases X with
  | nil => simp [noCommaWs, hc]
  | cons x xs => simp [noCommaWs, hc]

theorem noCommaWs_subCommaSpace : ∀ (n : Nat) (s : List Char), s.length ≤ n →
    noCommaPair s = true → noCommaWs (subCommaSpace s) = true := by
  intro n
  induction n with
  | zero =>
    intro s hlen _
    have hs : s = [] := List.length_eq_zero.mp (Nat.le_zero.mp hlen)
    subst hs
    rfl
  | succ n ih =>
    intro s hlen h
    cases s with
    | nil => rfl
    | cons c cs =>
      by_cases hc : c = ','
      · subst hc
        cases cs with
        | nil => rfl
        | cons c2 cs2 =>
          by_cases hw : isSpaceChar c2
          · rw [show subCommaSpace (',' :: c2 :: cs2) = c2 :: subCommaSpace cs2 from by
              simp [subCommaSpace, hw]]
            have hc2 : c2 ≠ ',' := by
              intro he
              rw [he] at hw
              simp [comma_not_space] at hw
            rw [noCommaWs_cons_of_ne c2 _ hc2]
            apply ih
            · simp at hlen; omega
            · exact noCommaPair_tail c2 cs2 (noCommaPair_tail ',' _ h)
          · have hc2 : c2 ≠ ',' := by
              intro he
              subst he
              simp [noCommaPair] at h
            rw [show subCommaSpace (',' :: c2 :: cs2)
                = ',' :: subCommaSpace (c2 :: cs2) from by
              simp [subCommaSpace, hw]]
            rw [show subCommaSpace (c2 :: cs2) = c2 :: subCommaSpace cs2 from by
              cases cs2 with
              | nil => simp [subCommaSpace, hc2]
              | cons d ds => simp [subCommaSpace, hc2]]
            rw [show noCommaWs (',' :: c2 :: subCommaSpace cs2)
                = (!isSpaceChar c2 && noCommaWs (c2 :: subCommaSpace cs2)) from by
              simp [noCommaWs]]
            rw [noCommaWs_cons_of_ne c2 _ hc2]
            have hrec : noCommaWs (subCommaSpace cs2) = true := by
              apply ih
              · simp at hlen; omega
              · exact noCommaPair_tail c2 cs2 (noCommaPair_tail ',' _ h)
            simp [hw, hrec]
      · rw [show subCommaSpace (c :: cs) = c :: subCommaSpace cs from by
          cases cs with
          | nil => simp [subCommaSpace, hc]
          | cons d ds => simp [subCommaSpace, hc]]
        rw [noCommaWs_cons_of_ne c _ hc]
        apply ih
        · simp at hlen; omega
        · exact noCommaPair_tail c cs h

theorem noCommaWs_dropWhile_ws : ∀ s : List Char, noCommaWs s = true →
    noCommaWs (s.dropWhile isSpaceChar) = true := by
  intro s
  induction s with
  | nil => intro h; exact h
  | cons c cs ih =>
    intro h
    by_cases hw : isSpaceChar c
    · rw [List.dropWhile_cons_of_pos hw]
      apply ih
      have hc : c ≠ ',' := by
        intro he
        rw [he] at hw
        simp [comma_not_space] at hw
      rw [noCommaWs_cons_of_ne c cs hc] at h
      exact h
    · rw [List.dropWhile_cons_of_neg hw]
      exact h

theorem noCommaWs_subSpaceRuns : ∀ (n : Nat) (s : List Char), s.length ≤ n →
    noCommaWs s = true → noCommaWs (subSpaceRuns false s) = true := by
  intro n
  induction n with
  | zero =>
    intro s hlen _
    have hs : s = [] := List.length_eq_zero.mp (Nat.le_zero.mp hlen)
    subst hs
    rfl
  | succ n ih =>
    intro s hlen h
    cases s with
    | nil => rfl
    | cons c cs =>
      by_cases hw : isSpaceChar c
      · rw [show subSpaceRuns false (c :: cs) = ' ' :: subSpaceRuns true cs from by
          simp [subSpaceRuns, hw]]
        rw [swallow_spaceRuns]
        rw [noCommaWs_cons_of_ne ' ' _ (by decide)]
        apply ih
        · have : (cs.dropWhile isSpaceChar).length ≤ cs.length :=
            (List.dropWhile_sublist _).length_le
          simp at hlen
          omega
        · have hc : c ≠ ',' := by
            intro he
            rw [he] at hw
            simp [comma_not_space] at hw
          rw [noCommaWs_cons_of_ne c cs hc] at h
          exact noCommaWs_dropWhile_ws cs h
      · by_cases hc : c = ','
        · subst hc
          cases cs with
          | nil => simp [noCommaWs] at h
          | cons c2 cs2 =>
            rw [show noCommaWs (',' :: c2 :: cs2)
                = (!isSpaceChar c2 && noCommaWs (c2 :: cs2)) from by
              simp [noCommaWs]] at h
            obtain ⟨hw2, h2⟩ := Bool.and_eq_true .. |>.mp h
            have hw2' : ¬ isSpaceChar c2 = true := by simpa using hw2
            rw [show subSpaceRuns false (',' :: c2 :: cs2)
                = ',' :: subSpaceRuns false (c2 :: cs2) from by
              simp [subSpaceRuns, hw]]
            rw [show subSpaceRuns false (c2 :: cs2) = c2 :: subSpaceRuns false cs2 from by
              simp [subSpaceRuns, hw2']]
            rw [show noCommaWs (',' :: c2 :: subSpaceRuns false cs2)
                = (!isSpaceChar c2 && noCommaWs (c2 :: subSpaceRuns false cs2)) from by
              simp [noCommaWs]]
            have hrec : noCommaWs (subSpaceRuns false (c2 :: cs2)) = true := by
              apply ih
              · simp at hlen; simp; omega
              · exact h2
            rw [show subSpaceRuns false (c2 :: cs2) = c2 :: subSpaceRuns false cs2 from by
              simp [subSpaceRuns, hw2']] at hrec
            simp [hw2', hrec]
        · rw [show subSpaceRuns false (c :: cs) = c :: subSpaceRuns false cs from by
            simp [subSpaceRuns, hw]]
          rw [noCommaWs_cons_of_ne c _ hc]
          apply ih
          · simp at hlen; omega
          · rw [noCommaWs_cons_of_ne c cs hc] at h
            exact h

theorem space_is_space : isSpaceChar ' ' = true := by decide

theorem wsCollapsed_cons_ws_nil (c : Char) (hc : isSpaceChar c = true) :
    wsCollapsed [c] = (c == ' ') := by
  simp [wsCollapsed, hc]

theorem wsCollapsed_cons_ws_cons (c d : Char) (ds : List Char)
    (hc : isSpaceChar c = true) :
    wsCollapsed (c :: d :: ds)
      = ((c == ' ') && !isSpaceChar d && wsCollapsed (d :: ds)) := by
  simp [wsCollapsed, hc, Bool.and_assoc]

theorem noCommaWs_append_ws : ∀ (u v : List Char),
    (∀ x ∈ v, isSpaceChar x = true) → noCommaWs (u ++ v) = true →
    noCommaWs u = true := by
  intro u
  induction u with
  | nil => intro v _ _; rfl
  | cons x u' ih =>
    intro v hv h
    by_cases hx : x = ','
    · subst hx
      cases u' with
      | nil =>
        exfalso
        cases v with
        | nil => simp [noCommaWs] at h
        | cons w ws =>
          rw [show ([','] ++ w :: ws) = ',' :: w :: ws from rfl] at h
          rw [show noCommaWs (',' :: w :: ws)
              = (!isSpaceChar w && noCommaWs (w :: ws)) from by simp [noCommaWs]] at h
          have hw : isSpaceChar w = true := hv w (by simp)
          simp [hw] at h
      | cons y u'' =>
        rw [show ((',' :: y :: u'') ++ v) = ',' :: y :: (u'' ++ v) from rfl] at h
        rw [show noCommaWs (',' :: y :: (u'' ++ v))
            = (!isSpaceChar y && noCommaWs (y :: (u'' ++ v))) from by
          simp [noCommaWs]] at h
        obtain ⟨hy, h2⟩ := Bool.and_eq_true .. |>.mp h
        rw [show noCommaWs (',' :: y :: u'')
            = (!isSpaceChar y && noCommaWs (y :: u'')) from by simp [noCommaWs]]
        rw [hy, ih v hv h2]
        rfl
    · rw [show ((x :: u') ++ v) = x :: (u' ++ v) from rfl,
        noCommaWs_cons_of_ne x _ hx] at h
      rw [noCommaWs_cons_of_ne x _ hx]
      exact ih v hv h

theorem strip_decomp (u : List Char) :
    u = (u.reverse.dropWhile isSpaceChar).reverse
        ++ (u.reverse.takeWhile isSpaceChar).reverse := by
  rw [← List.reverse_append, List.takeWhile_append_dropWhile, List.reverse_reverse]

theorem noCommaWs_stripChars (s : List Char)
    (h : noCommaWs s = true) : noCommaWs (stripChars s) = true := by
  have hu : noCommaWs (s.dropWhile isSpaceChar) = true :=
    noCommaWs_dropWhile_ws s h
  simp only [stripChars]
  apply noCommaWs_append_ws _ ((s.dropWhile isSpaceChar).reverse.takeWhile isSpaceChar).reverse
    ?hws (by rw [← strip_decomp]; exact hu)
  intro x hx
  rw [List.mem_reverse] at hx
  exact List.mem_takeWhile_imp hx

theorem wsCollapsed_cons_of_not_ws (c : Char) (X : List Char)
    (hc : ¬ isSpaceChar c = true) :
    wsCollapsed (c :: X) = wsCollapsed X := by
  simp [wsCollapsed, hc]

theorem wsCollapsed_subSpaceRuns : ∀ (n : Nat) (s : List Char), s.length ≤ n →
    wsCollapsed (subSpaceRuns false s) = true := by
  intro n
  induction n with
  | zero =>
    intro s hlen
    have hs : s = [] := List.length_eq_zero.mp (Nat.le_zero.mp hlen)
    subst hs
    rfl
  | succ n ih =>
    intro s hlen
    cases s with
    | nil => rfl
    | cons c cs =>
      by_cases hw : isSpaceChar c
      · rw [show subSpaceRuns false (c :: cs) = ' ' :: subSpaceRuns true cs from by
          simp [subSpaceRuns, hw]]
        rw [swallow_spaceRuns]
        have hrec : wsCollapsed (subSpaceRuns false (cs.dropWhile isSpaceChar)) = true := by
          apply ih
          have : (cs.dropWhile isSpaceChar).length ≤ cs.length :=
            (List.dropWhile_sublist _).length_le
          simp at hlen
          omega
        cases hY : subSpaceRuns false (cs.dropWhile isSpaceChar) with
        | nil => rw [wsCollapsed_cons_ws_nil ' ' space_is_space]; rfl
        | cons d ds =>
          rw [wsCollapsed_cons_ws_cons ' ' d ds space_is_space]
          have hd : isSpaceChar d = false := by
            cases he : cs.dropWhile isSpaceChar with
            | nil => rw [he] at hY; simp [subSpaceRuns] at hY
            | cons e es =>
              have hprop := List.head?_dropWhile_not isSpaceChar cs
              rw [he] at hprop
              have he' : isSpaceChar e = false := by simpa using hprop
              rw [he, show subSpaceRuns false (e :: es) = e :: subSpaceRuns false es from by
                simp [subSpaceRuns, he']] at hY
              cases hY
              exact he'
          rw [hY] at hrec
          simp [hd, hrec]
      · rw [show subSpaceRuns false (c :: cs) = c :: subSpaceRuns false cs from by
          simp [subSpaceRuns, hw]]
        rw [wsCollapsed_cons_of_not_ws c _ hw]
        apply ih
        simp at hlen
        omega

theorem wsCollapsed_append : ∀ (u v : List Char),
    wsCollapsed (u ++ v) = true → wsCollapsed u = true := by
  intro u
  induction u with
  | nil => intro v _; rfl
  | cons c u' ih =>
    intro v h
    by_cases hw : isSpaceChar c
    · cases u' with
      | nil =>
        rw [wsCollapsed_cons_ws_nil c hw]
        cases v with
        | nil => rw [← wsCollapsed_cons_ws_nil c hw]; simpa using h
        | cons w ws =>
          rw [show ([c] ++ w :: ws) = c :: w :: ws from rfl,
            wsCollapsed_cons_ws_cons c w ws hw] at h
          exact ((Bool.and_eq_true .. |>.mp (Bool.and_eq_true .. |>.mp h).1).1)
      | cons y u'' =>
        rw [show ((c :: y :: u'') ++ v) = c :: y :: (u'' ++ v) from rfl,
          wsCollapsed_cons_ws_cons c y _ hw] at h
        obtain ⟨h1, h3⟩ := Bool.and_eq_true .. |>.mp h
        obtain ⟨hsp, hy⟩ := Bool.and_eq_true .. |>.mp h1
        rw [wsCollapsed_cons_ws_cons c y u'' hw, hsp, hy,
          ih v (by simpa using h3)]
        rfl
    · rw [show ((c :: u') ++ v) = c :: (u' ++ v) from rfl,
        wsCollapsed_cons_of_not_ws c _ hw] at h
      rw [wsCollapsed_cons_of_not_ws c _ hw]
      exact ih v h

theorem wsCollapsed_dropWhile_ws : ∀ s : List Char, wsCollapsed s = true →
    wsCollapsed (s.dropWhile isSpaceChar) = true := by
  intro s
  induction s with
  | nil => intro h; exact h
  | cons c cs ih =>
    intro h
    by_cases hw : isSpaceChar c
    · rw [List.dropWhile_cons_of_pos hw]
      exact ih (wsCollapsed_tail c cs h)
    · rw [List.dropWhile_cons_of_neg hw]
      exact h

theorem wsCollapsed_stripChars (s : List Char)
    (h : wsCollapsed s = true) : wsCollapsed (stripChars s) = true := by
  have hu : wsCollapsed (s.dropWhile isSpaceChar) = true :=
    wsCollapsed_dropWhile_ws s h
  simp only [stripChars]
  exact wsCollapsed_append _ _ (by rw [← strip_decomp]; exact hu)

theorem noEdgeWs_stripChars (s : List Char) :
    noEdgeWs (stripChars s) = true := by
  simp only [stripChars, noEdgeWs, Bool.and_eq_true]
  constructor
  · cases he : ((s.dropWhile isSpaceChar).reverse.dropWhile isSpaceChar).reverse with
    | nil => rfl
    | cons c cs =>
      have h2 := strip_decomp (s.dropWhile isSpaceChar)
      rw [he] at h2
      have hhd : (s.dropWhile isSpaceChar).head? = some c := by
        rw [h2]
        rfl
      have hprop := List.head?_dropWhile_not isSpaceChar s
      rw [hhd] at hprop
      simpa using hprop
  · rw [List.getLast?_reverse]
    cases he : ((s.dropWhile isSpaceChar).reverse.dropWhile isSpaceChar).head? with
    | none => rfl
    | some c =>
      have hprop := List.head?_dropWhile_not isSpaceChar (s.dropWhile isSpaceChar).reverse
      rw [he] at hprop
      simpa using hprop

theorem subCommaRuns_id : ∀ (n : Nat) (t : List Char), t.length ≤ n →
    noCommaPair t = true → subCommaRuns false t = t := by
  intro n
  induction n with
  | zero =>
    intro t hlen _
    have ht : t = [] := List.length_eq_zero.mp (Nat.le_zero.mp hlen)
    subst ht
    rfl
  | succ n ih =>
    intro t hlen h
    cases t with
    | nil => rfl
    | cons c cs =>
      by_cases hc : c = ','
      · subst hc
        cases cs with
        | nil => rfl
        | cons c2 cs2 =>
          have hc2 : c2 ≠ ',' := by
            intro he
            subst he
            simp [noCommaPair] at h
          rw [show subCommaRuns false (',' :: c2 :: cs2)
              = ',' :: subCommaRuns false (c2 :: cs2) from by simp [subCommaRuns, hc2]]
          rw [ih (c2 :: cs2) (by simp at hlen; simp; omega)
            (noCommaPair_tail ',' _ h)]
      · rw [show subCommaRuns false (c :: cs) = c :: subCommaRuns false cs from by
          simp [subCommaRuns, hc]]
        rw [ih cs (by simp at hlen; omega) (noCommaPair_tail c cs h)]

theorem subCommaSpace_id : ∀ (n : Nat) (t : List Char), t.length ≤ n →
    noCommaWs t = true → subCommaSpace t = t := by
  intro n
  induction n with
  | zero =>
    intro t hlen _
    have ht : t = [] := List.length_eq_zero.mp (Nat.le_zero.mp hlen)
    subst ht
    rfl
  | succ n ih =>
    intro t hlen h
    cases t with
    | nil => rfl
    | cons c cs =>
      by_cases hc : c = ','
      · subst hc
        cases cs with
        | nil => simp [noCommaWs] at h
        | cons c2 cs2 =>
          rw [show noCommaWs (',' :: c2 :: cs2)
              = (!isSpaceChar c2 && noCommaWs (c2 :: cs2)) from by
            simp [noCommaWs]] at h
          obtain ⟨hw2, h2⟩ := Bool.and_eq_true .. |>.mp h
          have hw2' : ¬ isSpaceChar c2 = true := by simpa using hw2
          rw [show subCommaSpace (',' :: c2 :: cs2)
              = ',' :: subCommaSpace (c2 :: cs2) from by simp [subCommaSpace, hw2']]
          rw [ih (c2 :: cs2) (by simp at hlen; simp; omega) h2]
      · rw [show subCommaSpace (c :: cs) = c :: subCommaSpace cs from by
          cases cs with
          | nil => simp [subCommaSpace, hc]
          | cons d ds => simp [subCommaSpace, hc]]
        rw [noCommaWs_cons_of_ne c cs hc] at h
        rw [ih cs (by simp at hlen; omega) h]

theorem subSpaceRuns_id : ∀ (n : Nat) (t : List Char), t.length ≤ n →
    wsCollapsed t = true → subSpaceRuns false t = t := by
  intro n
  induction n with
  | zero =>
    intro t hlen _
    have ht : t = [] := List.length_eq_zero.mp (Nat.le_zero.mp hlen)
    subst ht
    rfl
  | succ n ih =>
    intro t hlen h
    cases t with
    | nil => rfl
    | cons c cs =>
      by_cases hw : isSpaceChar c
      · cases cs with
        | nil =>
          rw [wsCollapsed_cons_ws_nil c hw] at h
          have hc : c = ' ' := by simpa using h
          subst hc
          rfl
        | cons d ds =>
          rw [wsCollapsed_cons_ws_cons c d ds hw] at h
          obtain ⟨h1, h3⟩ := Bool.and_eq_true .. |>.mp h
          obtain ⟨hsp, hd⟩ := Bool.and_eq_true .. |>.mp h1
          have hc : c = ' ' := by simpa using hsp
          have hd' : ¬ isSpaceChar d = true := by simpa using hd
          have hih : subSpaceRuns false (d :: ds) = d :: ds :=
            ih (d :: ds) (by simp at hlen; simp; omega) h3
          rw [show subSpaceRuns false (d :: ds) = d :: subSpaceRuns false ds from by
            simp [subSpaceRuns, hd']] at hih
          have hds : subSpaceRuns false ds = ds := by
            simpa using hih
          subst hc
          rw [show subSpaceRuns false (' ' :: d :: ds)
              = ' ' :: subSpaceRuns true (d :: ds) from by
            simp [subSpaceRuns, space_is_space]]
          rw [show subSpaceRuns true (d :: ds) = d :: subSpaceRuns false ds from by
            simp [subSpaceRuns, hd']]
          rw [hds]
      · rw [show subSpaceRuns false (c :: cs) = c :: subSpaceRuns false cs from by
          simp [subSpaceRuns, hw]]
        rw [ih cs (by simp at hlen; omega) (wsCollapsed_tail c cs h)]

theorem stripChars_id (t : List Char) (h : noEdgeWs t = true) :
    stripChars t = t := by
  simp only [noEdgeWs, Bool.and_eq_true] at h
  obtain ⟨h1, h2⟩ := h
  have hd : t.dropWhile isSpaceChar = t := by
    cases t with
    | nil => rfl
    | cons c cs =>
      have hc : ¬ isSpaceChar c = true := by
        simp at h1
        simpa using h1
      exact List.dropWhile_cons_of_neg hc
  simp only [stripChars, hd]
  cases hrev : t.reverse with
  | nil =>
    have ht : t = [] := by simpa using congrArg List.reverse hrev
    simp [ht]
  | cons c cs =>
    have hlast : t.getLast? = some c := by
      have hgr := List.getLast?_reverse (l := t.reverse)
      rw [List.reverse_reverse] at hgr
      rw [hgr, hrev]
      rfl
    rw [hlast] at h2
    have hc : ¬ isSpaceChar c = true := by simpa using h2
    rw [List.dropWhile_cons_of_neg hc, ← hrev, List.reverse_reverse]

theorem cleanup_invariants (s : List Char) :
    noCommaPair (cleanupLine s) = true ∧ noCommaWs (cleanupLine s) = true ∧
    wsCollapsed (cleanupLine s) = true ∧ noEdgeWs (cleanupLine s) = true := by
  have p1 : noCommaPair (subCommaRuns false s) = true :=
    noCommaPair_subCommaRuns s.length s le_rfl
  have p1b : noCommaPair (subCommaSpace (subCommaRuns false s)) = true :=
    noCommaPair_subCommaSpace _ _ le_rfl p1
  have p1c : noCommaPair
      (subSpaceRuns false (subCommaSpace (subCommaRuns false s))) = true :=
    noCommaPair_subSpaceRuns _ _ le_rfl p1b
  have p2 : noCommaWs (subCommaSpace (subCommaRuns false s)) = true :=
    noCommaWs_subCommaSpace _ _ le_rfl p1
  have p2b : noCommaWs
      (subSpaceRuns false (subCommaSpace (subCommaRuns false s))) = true :=
    noCommaWs_subSpaceRuns _ _ le_rfl p2
  have p3 : wsCollapsed
      (subSpaceRuns false (subCommaSpace (subCommaRuns false s))) = true :=
    wsCollapsed_subSpaceRuns _ _ le_rfl
  exact ⟨noCommaPair_stripChars _ p1c, noCommaWs_stripChars _ p2b,
    wsCollapsed_stripChars _ p3, noEdgeWs_stripChars _⟩

theorem cleanupLine_id (t : List Char) (h1 : noCommaPair t = true)
    (h2 : noCommaWs t = true) (h3 : wsCollapsed t = true)
    (h4 : noEdgeWs t = true) : cleanupLine t = t := by
  simp only [cleanupLine]
  rw [subCommaRuns_id t.length t le_rfl h1, subCommaSpace_id t.length t le_rfl h2,
    subSpaceRuns_id t.length t le_rfl h3, stripChars_id t h4]

theorem cleanupLine_idem (s : List Char) :
    cleanupLine (cleanupLine s) = cleanupLine s := by
  obtain ⟨h1, h2, h3, h4⟩ := cleanup_invariants s
  exact cleanupLine_id _ h1 h2 h3 h4

/-- C10: the fstab line patcher is idempotent: for every input line, applying
`patch_fstab_line` to the patched text it returned yields that same text again
with an empty list of changes — no substitution pattern of `FSTAB_PATTERNS`
matches its own output, and the comma/whitespace normalisation is a
fixpoint. -/
theorem fstab_patch_idempotent (line : String) :
    patch_fstab_line (patch_fstab_line line).1
      = ((patch_fstab_line line).1, []) := by
  have hgoodAll : ∀ np ∈ fstabPatterns, GoodPat np.2 = true := by decide
  have hkill := foldl_kills fstabPatterns (line.data, []) hgoodAll
  have hT : ∀ np ∈ fstabPatterns,
      hasTok np.2 false
        (cleanupLine (fstabPatterns.foldl applyPattern (line.data, [])).1)
        = false := by
    intro np hnp
    have hg := hgoodAll np hnp
    simp only [GoodPat, Bool.and_eq_true] at hg
    exact cleanup_preserves_noTok np.2 hg.1.1 _ (hkill np hnp)
  have hnoop := foldl_noop fstabPatterns
    (cleanupLine (fstabPatterns.foldl applyPattern (line.data, [])).1) [] hT
  have hfst : (patch_fstab_line line).1
      = String.mk
          (cleanupLine (fstabPatterns.foldl applyPattern (line.data, [])).1) :=
    rfl
  rw [hfst]
  simp only [patch_fstab_line]
  rw [hnoop]
  simp only [cleanupLine_idem]

end RK
